import Mathlib

/-!
# Omega_h dense kernels: fixed-size algebra and Householder QR

A shallow embedding of `src/src/Omega_h_math.hpp` and `src/qr.hpp`.

Data model.  A `Few<T, n>` is a block of cells addressed by a natural index; the
static extent `n` is a template argument in the source and an explicit `Nat`
argument here.  `Vector<m>` is `Few<Real, m>` and `Matrix<m, n>` is
`Few<Vector<m>, n>`, column first: `a j i` is row `i` of column `j`, the source's
`a[j][i]`.  Cells of the embedding at indices beyond the extent are not part of
the C++ object and no statement below observes them.

A local that the source declares without an initialiser (`Vector<m> v_k;`) holds
indeterminate content; the embedding takes that content as an argument named
after the local, so every theorem quantifies over it.

An access whose index is bounded by the guard of the enclosing `for` is in range
by construction and is plain application.  Every other access goes through a
bounds check and the function returns `none` when the check fails.  The reads of
`v[k]` in `implicit_q_x` are embedded a second time without the check
(`implicit_q_x_unchecked`, `decompose_qr_reduced_q`), to state what the values
written by the source are: there the cell `v n` behind the last reflector stands
for whatever an out-of-range read returns, and the theorems hold for every `v`.

Scalars are an arbitrary linearly ordered field `α` together with a square-root
function `sqrt : α → α`; the theorems on exact real arithmetic instantiate
`α := ℝ` and `sqrt := Real.sqrt`.
-/

namespace Omega_h

/-! ## Data model -/

/-- Cells of a `Few<T, n>`, addressed by index. -/
abbrev Few (T : Type) : Type := Nat → T

/-- Cells of a `Vector<m>`. -/
abbrev Vector (α : Type) : Type := Few α

/-- Cells of a `Matrix<m, n>`: `a j` is column `j`, `a j i` is the source's `a[j][i]`. -/
abbrev Matrix (α : Type) : Type := Few (Vector α)

/-- The assignment `a[j][i] = x`. -/
def setEntry {α : Type} (a : Matrix α) (j i : Nat) (x : α) : Matrix α :=
  Function.update a j (Function.update (a j) i x)

/-- Bounds-checked read of cell `k` of a `Few<T, n>`. -/
def Few.get? {T : Type} (n : Nat) (v : Few T) (k : Nat) : Option T :=
  if k < n then some (v k) else none

/-- The loop `for (i = lo; i < hi; ++i) s = body i s`. -/
def forLoop {σ : Type} (lo hi : Nat) (body : Nat → σ → σ) (s : σ) : σ :=
  (List.range' lo (hi - lo)).foldl (fun s i => body i s) s

/-- The loop `for (i = lo; i < hi; ++i) s = body i s` whose body may fault. -/
def forLoopM {σ : Type} (lo hi : Nat) (body : Nat → σ → Option σ) (s : σ) : Option σ :=
  (List.range' lo (hi - lo)).foldlM (fun s i => body i s) s

/-! ## Scalars and vectors (`Omega_h_scalar.hpp`, `Omega_h_vector.hpp`) -/

section Scalar

variable {α : Type}

/-- Modelled from the spec: `square` of the absent `Omega_h_scalar.hpp`, the product of a
scalar with itself. -/
def square [Mul α] (x : α) : α := x * x

/-- Modelled from the spec: `sign` of the absent `Omega_h_scalar.hpp`; it returns `+1` for
`t ≥ 0` and `-1` otherwise. -/
def sign [LinearOrderedField α] (t : α) : α := if t < 0 then -1 else 1

/-- Modelled from the spec: `vector_1` of the absent `Omega_h_vector.hpp`, the vector whose
entry 0 is `x`. -/
def vector_1 (x : α) : Vector α := fun _ => x

/-- Modelled from the spec: `vector_2` of the absent `Omega_h_vector.hpp`, the vector with
entries `x, y`. -/
def vector_2 (x y : α) : Vector α := fun i =>
  match i with
  | 0 => x
  | _ => y

/-- Modelled from the spec: `vector_3` of the absent `Omega_h_vector.hpp`, the vector with
entries `x, y, z`. -/
def vector_3 (x y z : α) : Vector α := fun i =>
  match i with
  | 0 => x
  | 1 => y
  | _ => z

/-- Modelled from the spec: `operator*(Vector<m>, Real)` of the absent `Omega_h_vector.hpp`,
every entry of `a` times `b`. -/
def Vector.scale [Mul α] (a : Vector α) (b : α) : Vector α := fun i => a i * b

/-- Modelled from the spec: `operator+(Vector<m>, Vector<m>)` of the absent
`Omega_h_vector.hpp`, the entrywise sum. -/
def Vector.add [Add α] (a b : Vector α) : Vector α := fun i => a i + b i

end Scalar

/-! ## `Omega_h_math.hpp` -/

section Math

variable {α : Type}

/-- Source `operator*(Matrix<m, n> a, Vector<n> b)`, lines 43-48: `c = a[0] * b[0]`, then
`c = c + a[j] * b[j]` for `j = 1 .. n-1`. -/
def mulVec [Add α] [Mul α] (n : Nat) (a : Matrix α) (b : Vector α) : Vector α :=
  forLoop 1 n (fun j c => Vector.add c (Vector.scale (a j) (b j))) (Vector.scale (a 0) (b 0))

/-- Source `operator*(Matrix<m, p> a, Matrix<p, n> b)`, lines 50-55: `c[j] = a * b[j]` for
every column `j < n` of the unassigned local `c`. -/
def mulMat [Add α] [Mul α] (n p : Nat) (a b : Matrix α) (c : Matrix α) : Matrix α :=
  forLoop 0 n (fun j c => Function.update c j (mulVec p a (b j))) c

/-- Source `transpose(Matrix<m, n> a)`, lines 57-63: `b[i][j] = a[j][i]` for `i < m`,
`j < n`, on the unassigned local `b`. -/
def transpose (m n : Nat) (a : Matrix α) (b : Matrix α) : Matrix α :=
  forLoop 0 m (fun i b => forLoop 0 n (fun j b => setEntry b i j (a j i)) b) b

/-- Source `identity_matrix<max_m, max_n>(Int m, Int n)`, lines 65-71: `a[j][i] = (i == j)`
for `j < n`, `i < m`, on the unassigned local `a`. -/
def identity_matrix_mn [Zero α] [One α] (m n : Nat) (a : Matrix α) : Matrix α :=
  forLoop 0 n (fun j a => forLoop 0 m (fun i a => setEntry a j i (if i = j then 1 else 0)) a) a

/-- Source `identity_matrix<max_m, max_n>()`, lines 73-76. -/
def identity_matrix [Zero α] [One α] (max_m max_n : Nat) (a : Matrix α) : Matrix α :=
  identity_matrix_mn max_m max_n a

/-- Source `matrix_1x1`, lines 78-82. -/
def matrix_1x1 (a : α) (o : Matrix α) : Matrix α := setEntry o 0 0 a

/-- Source `matrix_2x2`, lines 84-89: the arguments are given row first. -/
def matrix_2x2 (a b c d : α) (o : Matrix α) : Matrix α :=
  Function.update (Function.update o 0 (vector_2 a c)) 1 (vector_2 b d)

/-- Source `matrix_3x3`, lines 91-98: the arguments are given row first. -/
def matrix_3x3 (a b c d e f g h i : α) (o : Matrix α) : Matrix α :=
  Function.update
    (Function.update (Function.update o 0 (vector_3 a d g)) 1 (vector_3 b e h))
    2 (vector_3 c f i)

/-- Source `cross(Vector<3> a)`, lines 100-102. -/
def cross [Zero α] [Neg α] (a : Vector α) (o : Matrix α) : Matrix α :=
  matrix_3x3 0 (-a 2) (a 1) (a 2) 0 (-a 0) (-a 1) (a 0) 0 o

/-- Source `cross(Vector<3> a, Vector<3> b)`, lines 104-107. -/
def cross2 [Mul α] [Sub α] (a b : Vector α) : Vector α :=
  vector_3 (a 1 * b 2 - a 2 * b 1) (a 2 * b 0 - a 0 * b 2) (a 0 * b 1 - a 1 * b 0)

/-- Source `diagonal(Vector<m> v)`, lines 109-116: `a[i][j] = a[j][i] = 0` for
`i < j < m`, then `a[i][i] = v[i]`. -/
def diagonal [Zero α] (m : Nat) (v : Vector α) (a : Matrix α) : Matrix α :=
  forLoop 0 m (fun i a => setEntry a i i (v i))
    (forLoop 0 m
      (fun i a => forLoop (i + 1) m (fun j a => setEntry (setEntry a j i 0) i j 0) a) a)

/-- Source `symm_dofs`, lines 130-132. -/
def symm_dofs (dim : Nat) : Nat := ((dim + 1) * dim) / 2

/-- Source `symm2vector(Matrix<1, 1>)`, lines 134-136. -/
def symm2vector_1 (symm : Matrix α) : Vector α := vector_1 (symm 0 0)

/-- Source `vector2symm(Vector<1>)`, lines 138-140. -/
def vector2symm_1 (v : Vector α) (o : Matrix α) : Matrix α := matrix_1x1 (v 0) o

/-- Source `symm2vector(Matrix<2, 2>)`, lines 142-148, on the unassigned local `v`. -/
def symm2vector_2 (symm : Matrix α) (v : Vector α) : Vector α :=
  let v := Function.update v 0 (symm 0 0)
  let v := Function.update v 1 (symm 1 1)
  let v := Function.update v 2 (symm 1 0)
  v

/-- Source `vector2symm(Vector<3>)`, lines 150-157, on the unassigned local `symm`. -/
def vector2symm_2 (v : Vector α) (symm : Matrix α) : Matrix α :=
  let symm := setEntry symm 0 0 (v 0)
  let symm := setEntry symm 1 1 (v 1)
  let symm := setEntry symm 1 0 (v 2)
  let symm := setEntry symm 0 1 (symm 1 0)
  symm

/-- Source `symm2vector(Matrix<3, 3>)`, lines 159-168, on the unassigned local `v`. -/
def symm2vector_3 (symm : Matrix α) (v : Vector α) : Vector α :=
  let v := Function.update v 0 (symm 0 0)
  let v := Function.update v 1 (symm 1 1)
  let v := Function.update v 2 (symm 2 2)
  let v := Function.update v 3 (symm 1 0)
  let v := Function.update v 4 (symm 2 1)
  let v := Function.update v 5 (symm 2 0)
  v

/-- Source `vector2symm(Vector<6>)`, lines 170-182, on the unassigned local `symm`. -/
def vector2symm_3 (v : Vector α) (symm : Matrix α) : Matrix α :=
  let symm := setEntry symm 0 0 (v 0)
  let symm := setEntry symm 1 1 (v 1)
  let symm := setEntry symm 2 2 (v 2)
  let symm := setEntry symm 1 0 (v 3)
  let symm := setEntry symm 2 1 (v 4)
  let symm := setEntry symm 2 0 (v 5)
  let symm := setEntry symm 0 1 (symm 1 0)
  let symm := setEntry symm 1 2 (symm 2 1)
  let symm := setEntry symm 0 2 (symm 2 0)
  symm

/-- Source `metric_eigenvalues`, lines 194-199: `l[i] = 1.0 / square(h[i])` for `i < dim`,
on the unassigned local `l`. -/
def metric_eigenvalues [One α] [Mul α] [Div α] (dim : Nat) (h : Vector α) (l : Vector α) :
    Vector α :=
  forLoop 0 dim (fun i l => Function.update l i (1 / square (h i))) l

/-- Source `compose_metric`, lines 201-206: `r * diagonal(l) * transpose(r)`, the product
associating to the left.  The arguments after `h` are the unassigned locals of the callees:
`l` of `metric_eigenvalues`, `d` of `diagonal`, `t` of `transpose`, `c1` and `c2` of the two
matrix products. -/
def compose_metric [Zero α] [One α] [Add α] [Mul α] [Div α] (dim : Nat) (r : Matrix α)
    (h : Vector α) (l : Vector α) (d t c1 c2 : Matrix α) : Matrix α :=
  let l := metric_eigenvalues dim h l
  mulMat dim dim (mulMat dim dim r (diagonal dim l d) c1) (transpose dim dim r t) c2

/-- Source `Matrix<m, n>::Matrix(std::initializer_list<Real> l)`, lines 34-41, on the
unassigned object `a`: the scalar number `k` of the list is stored at `(*this)[k % n][k / n]`.
Neither index is bounded by a loop guard: the column index needs `n ≠ 0` and the row index
`k / n < m`. The state of the fold is the matrix and the counter `k`. -/
def Matrix_initializer_list (m n : Nat) (l : List α) (a : Matrix α) : Option (Matrix α) :=
  (l.foldlM
    (fun (s : Matrix α × Nat) x =>
      if s.2 % n < n ∧ s.2 / n < m then some (setEntry s.1 (s.2 % n) (s.2 / n) x, s.2 + 1)
      else none)
    (a, 0)).map Prod.fst

/-- Source `set_vector<n>`, lines 118-121, on a flat array `a` of `len` cells:
`a[i * n + j] = v[j]` for `j < n`; the array index is checked against `len`. -/
def set_vector (len n : Nat) (a : Few α) (i : Nat) (v : Vector α) : Option (Few α) :=
  forLoopM 0 n
    (fun j a => if i * n + j < len then some (Function.update a (i * n + j) (v j)) else none) a

/-- Source `get_vector<n>`, lines 123-128, on a flat array `a` of `len` cells and the
unassigned local `v`: `v[j] = a[i * n + j]` for `j < n`; the array index is checked against
`len`. -/
def get_vector (len n : Nat) (a : Few α) (i : Nat) (v : Vector α) : Option (Vector α) :=
  forLoopM 0 n
    (fun j v => if i * n + j < len then some (Function.update v j (a (i * n + j))) else none) v

/-- Source `set_symm<n>`, lines 184-187: `set_vector(a, i, symm2vector(symm))`, the overload
of `symm2vector` chosen by the size `n`. There is an overload for `n = 1, 2, 3` only; for
another size the template has no instance, which is the result `none`. The argument `v` is the
unassigned local of `symm2vector`. -/
def set_symm (len n : Nat) (a : Few α) (i : Nat) (symm : Matrix α) (v : Vector α) :
    Option (Few α) :=
  match n with
  | 1 => set_vector len (symm_dofs 1) a i (symm2vector_1 symm)
  | 2 => set_vector len (symm_dofs 2) a i (symm2vector_2 symm v)
  | 3 => set_vector len (symm_dofs 3) a i (symm2vector_3 symm v)
  | _ => none

/-- Source `get_symm<n>`, lines 189-192: `vector2symm(get_vector<symm_dofs(n)>(a, i))`, the
overload of `vector2symm` chosen by the size `n` (`n = 1, 2, 3`, otherwise `none` as for
`set_symm`). The arguments `v` and `o` are the unassigned locals of `get_vector` and of
`vector2symm`. -/
def get_symm (len n : Nat) (a : Few α) (i : Nat) (v : Vector α) (o : Matrix α) :
    Option (Matrix α) :=
  match n with
  | 1 => (get_vector len (symm_dofs 1) a i v).map (fun w => vector2symm_1 w o)
  | 2 => (get_vector len (symm_dofs 2) a i v).map (fun w => vector2symm_2 w o)
  | 3 => (get_vector len (symm_dofs 3) a i v).map (fun w => vector2symm_3 w o)
  | _ => none

end Math

/-! ## `qr.hpp`

The sizes `m`, `n` and the indices `k`, `o` have type `U8` in the source.  A `U8` loop
counter initialised with `k + o` starts at `(k + o) % 256`; an index expression `k + o`
is computed in `int` and is not reduced. -/

section QR

variable {α : Type} [LinearOrderedField α]

/-- Source `get_householder_vector`, lines 13-20: the local `v_k` after the sub-column has
been copied into it and `sign(a[k][k + o]) * norm_x` has been added to entry `k + o`. -/
def householder_candidate (sqrt : α → α) (m : Nat) (a : Matrix α) (k o : Nat)
    (v_k : Vector α) : Vector α :=
  let norm_x := forLoop ((k + o) % 256) m (fun i norm_x => norm_x + square (a k i)) 0
  let norm_x := sqrt norm_x
  let v_k := forLoop ((k + o) % 256) m (fun i v_k => Function.update v_k i (a k i)) v_k
  Function.update v_k (k + o) (v_k (k + o) + sign (a k (k + o)) * norm_x)

/-- Source `get_householder_vector`, lines 21-24: the value of `norm_v_k`, the divisor of the
normalisation loop. -/
def householder_divisor (sqrt : α → α) (m : Nat) (a : Matrix α) (k o : Nat)
    (v_k : Vector α) : α :=
  let v_k := householder_candidate sqrt m a k o v_k
  let norm_v_k := forLoop ((k + o) % 256) m (fun i norm_v_k => norm_v_k + square (v_k i)) 0
  sqrt norm_v_k

/-- Source `get_householder_vector`, lines 11-28, on the unassigned local `v_k`.  Column `k`
of `a` is read at lines 15, 19 and 20 and must exist (`k < n`); line 20 reads `a[k][k + o]`
and updates `v_k[k + o]` outside any loop, so `k + o < m` is needed as well. -/
def get_householder_vector (sqrt : α → α) (m n : Nat) (a : Matrix α) (k o : Nat)
    (v_k : Vector α) : Option (Vector α) :=
  if k < n ∧ k + o < m then
    let norm_v_k := householder_divisor sqrt m a k o v_k
    let v_k := householder_candidate sqrt m a k o v_k
    some (forLoop ((k + o) % 256) m (fun i v_k => Function.update v_k i (v_k i / norm_v_k)) v_k)
  else
    none

/-- Source `reflect_columns`, lines 30-39. -/
def reflect_columns (m n : Nat) (a : Matrix α) (v_k : Vector α) (k o : Nat) : Matrix α :=
  forLoop 0 n
    (fun j a =>
      let dot := forLoop ((k + o) % 256) m (fun i dot => dot + a j i * v_k i) 0
      forLoop ((k + o) % 256) m (fun i a => setEntry a j i (a j i - 2 * dot * v_k i)) a)
    a

/-- One iteration of the loop of `factorize_qr_householder`, lines 45-46; `u k` is the
indeterminate content of the callee's local `v_k` in iteration `k`. -/
def factorize_step (sqrt : α → α) (m n : Nat) (u : Few (Vector α)) (k : Nat)
    (s : Matrix α × Few (Vector α)) : Option (Matrix α × Few (Vector α)) :=
  (get_householder_vector sqrt m n s.1 k 0 (u k)).map
    (fun v_k => (reflect_columns m n s.1 v_k k 0, Function.update s.2 k v_k))

/-- The first `c` iterations of the loop of `factorize_qr_householder`: the matrix and the
reflector set they leave. -/
def factorize_upto (sqrt : α → α) (m n : Nat) (a : Matrix α) (v : Few (Vector α))
    (u : Few (Vector α)) (c : Nat) : Option (Matrix α × Few (Vector α)) :=
  forLoopM 0 c (factorize_step sqrt m n u) (a, v)

/-- Source `factorize_qr_householder`, lines 41-48: the pair of the in-place updated `a` and
the reflector set `v`. -/
def factorize_qr_householder (sqrt : α → α) (m n : Nat) (a : Matrix α) (v : Few (Vector α))
    (u : Few (Vector α)) : Option (Matrix α × Few (Vector α)) :=
  factorize_upto sqrt m n a v u n

/-- Source `implicit_q_trans_b`, lines 56-66. -/
def implicit_q_trans_b (m n : Nat) (b : Vector α) (v : Few (Vector α)) : Vector α :=
  forLoop 0 n
    (fun k b =>
      let dot := forLoop k m (fun i dot => dot + v k i * b i) 0
      forLoop k m (fun i b => Function.update b i (b i - 2 * dot * v k i)) b)
    b

/-- Source `implicit_q_x`, lines 74-85.  The reflector `v[k]` with `k = n - k2` is read
inside the two inner loops; the read is checked against the extent `n` of `v`. -/
def implicit_q_x (m n : Nat) (x : Vector α) (v : Few (Vector α)) : Option (Vector α) :=
  forLoopM 0 n
    (fun k2 x =>
      let k := n - k2
      (forLoopM k m (fun i dot => (Few.get? n v k).map (fun vk => dot + vk i * x i)) 0).bind
        (fun dot =>
          forLoopM k m
            (fun i x => (Few.get? n v k).map (fun vk => Function.update x i (x i - 2 * dot * vk i)))
            x))
    x

/-- Source `decompose_qr_reduced`, lines 87-99.  The result is `none` when the factorization
faults, before either output is touched.  Otherwise it is `some (r, q)`: `r` is the output
`r` as left by lines 91-93, and `q` is the output `q` as left by lines 94-98, or `none` when
`implicit_q_x` faults.  The arguments `q` and `r` are the prior contents of the outputs, `v`
the unassigned local, `u` the indeterminate locals of the factorization. -/
def decompose_qr_reduced (sqrt : α → α) (m n : Nat) (a q r : Matrix α) (v : Few (Vector α))
    (u : Few (Vector α)) : Option (Matrix α × Option (Matrix α)) :=
  (factorize_qr_householder sqrt m n a v u).map
    (fun s =>
      let a := s.1
      let v := s.2
      let r := forLoop 0 n (fun j r => forLoop 0 n (fun i r => setEntry r j i (a j i)) r) r
      let q := forLoopM 0 n
        (fun j q =>
          let q := forLoop 0 m (fun i q => setEntry q j i (if i = j then 1 else 0)) q
          (implicit_q_x m n (q j) v).map (fun x => Function.update q j x))
        q
      (r, q))

/-- No normalisation of the factorization divides by zero: in every iteration `k < n`, the
divisor `norm_v_k` computed from the matrix left by the iterations before it is not zero. -/
def NoZeroDivisor (sqrt : α → α) (m n : Nat) (a : Matrix α) (v : Few (Vector α))
    (u : Few (Vector α)) : Prop :=
  ∀ k, k < n → ∀ s, factorize_upto sqrt m n a v u k = some s →
    householder_divisor sqrt m s.1 k 0 (u k) ≠ 0

/-- The columns of the `m`-by-`n` matrix `a` are linearly independent: a combination of the
`n` columns that vanishes in all `m` rows has all coefficients zero. -/
def FullColumnRank (m n : Nat) (a : Matrix α) : Prop :=
  ∀ c : Nat → α, (∀ i, i < m → ∑ j in Finset.range n, c j * a j i = 0) →
    ∀ j, j < n → c j = 0

/-- The loop that the spec describes for `implicit_q_x`, written from the spec's words and
not from the source: for `k = n-1` down to `0`, `dot = Σ_{i=k}^{m-1} v[k][i] * x[i]` and then
`x[i] -= 2 * dot * v[k][i]` for `i = k .. m-1`. -/
def implicit_q_x_spec (m n : Nat) (x : Vector α) (v : Few (Vector α)) : Vector α :=
  forLoop 0 n
    (fun k2 x =>
      let k := n - 1 - k2
      let dot := forLoop k m (fun i dot => dot + v k i * x i) 0
      forLoop k m (fun i x => Function.update x i (x i - 2 * dot * v k i)) x)
    x

/-- The matrix of the spec's concrete scenario: 3 rows, 2 columns, column 0 is `[3, 4, 0]`
and column 1 is `[0, 0, 5]`. -/
def scenario_3x2 : Matrix α := fun j i =>
  if j = 0 then (if i = 0 then 3 else if i = 1 then 4 else 0) else (if i = 2 then 5 else 0)

/-- Source `implicit_q_x`, lines 74-85, with the reads of `v[k]` left unchecked, as the
source performs them. In the first pass `k = n`, and the cell `v n` behind the last reflector
stands for whatever value the out-of-range read returns; a statement that holds for every `v`
holds for every such value. Where the checked `implicit_q_x` returns a vector, it is this
one. -/
def implicit_q_x_unchecked (m n : Nat) (x : Vector α) (v : Few (Vector α)) : Vector α :=
  forLoop 0 n
    (fun k2 x =>
      let k := n - k2
      let dot := forLoop k m (fun i dot => dot + v k i * x i) 0
      forLoop k m (fun i x => Function.update x i (x i - 2 * dot * v k i)) x)
    x

/-- Source `decompose_qr_reduced`, lines 89-90 and 94-98: the output `q`, with the reads of
`implicit_q_x` unchecked. The result is `none` when the factorization faults. The argument `q`
is the prior content of the output, `v` the unassigned local (its cell `v n` is what the
out-of-range read of the first pass returns), `u` the indeterminate locals of the
factorization. -/
def decompose_qr_reduced_q (sqrt : α → α) (m n : Nat) (a q : Matrix α) (v : Few (Vector α))
    (u : Few (Vector α)) : Option (Matrix α) :=
  (factorize_qr_householder sqrt m n a v u).map
    (fun s =>
      forLoop 0 n
        (fun j q =>
          let q := forLoop 0 m (fun i q => setEntry q j i (if i = j then 1 else 0)) q
          Function.update q j (implicit_q_x_unchecked m n (q j) s.2))
        q)

end QR

/-! ## Symmetric-tensor codec -/

section Codec

variable {α : Type}

/-- C4. Symmetric codec round trip: for each size 1, 2, 3 and every symmetric matrix `S` of
that size, decoding the packed form of `S` gives back `S` entry for entry, whatever the
prior content of the locals. -/
theorem vector2symm_symm2vector (S : Matrix α) (v : Vector α) (o : Matrix α) :
    (∀ i j, i < 1 → j < 1 → vector2symm_1 (symm2vector_1 S) o i j = S i j) ∧
    ((∀ i j, i < 2 → j < 2 → S i j = S j i) →
      ∀ i j, i < 2 → j < 2 → vector2symm_2 (symm2vector_2 S v) o i j = S i j) ∧
    ((∀ i j, i < 3 → j < 3 → S i j = S j i) →
      ∀ i j, i < 3 → j < 3 → vector2symm_3 (symm2vector_3 S v) o i j = S i j) := by
  refine ⟨?_, ?_, ?_⟩
  · intro i j hi hj
    interval_cases i
    interval_cases j
    simp [vector2symm_1, symm2vector_1, matrix_1x1, vector_1, setEntry]
  · intro hS i j hi hj
    have h01 := hS 0 1 (by decide) (by decide)
    interval_cases i <;> interval_cases j <;>
      simp [vector2symm_2, symm2vector_2, setEntry, Function.update, h01]
  · intro hS i j hi hj
    have h01 := hS 0 1 (by decide) (by decide)
    have h02 := hS 0 2 (by decide) (by decide)
    have h12 := hS 1 2 (by decide) (by decide)
    interval_cases i <;> interval_cases j <;>
      simp [vector2symm_3, symm2vector_3, setEntry, Function.update, h01, h02, h12]

/-- The symmetric 3-by-3 matrix with entry `i + j` in row `i`, column `j`, packed and
decoded again, has its entry (0, 2) back. -/
theorem vector2symm_symm2vector_witness :
    vector2symm_3 (symm2vector_3 (fun j i => (j + i : Nat)) (fun _ => 7)) (fun _ _ => 9) 0 2
      = 0 + 2 :=
  (vector2symm_symm2vector (fun j i => (j + i : Nat)) (fun _ => 7) (fun _ _ => 9)).2.2
    (fun i j _ _ => Nat.add_comm i j) 0 2 (by decide) (by decide)

/-- C5. Packed order for size 3: the six entries of `symm2vector(S)`, read in index order,
are `S[0][0], S[1][1], S[2][2], S[1][0], S[2][1], S[2][0]`, and six is `symm_dofs(3)`,
which is `3 * (3 + 1) / 2`. -/
theorem symm2vector_3_order (S : Matrix α) (v : Vector α) :
    (List.range (symm_dofs 3)).map (symm2vector_3 S v)
        = [S 0 0, S 1 1, S 2 2, S 1 0, S 2 1, S 2 0] ∧
      symm_dofs 3 = 3 * (3 + 1) / 2 := by
  have h : symm_dofs 3 = 6 := rfl
  refine ⟨?_, rfl⟩
  rw [h]
  simp [List.range_succ, symm2vector_3, Function.update]

/-- C6. Packing after decoding is the identity on packed vectors: for each size `d` in
1, 2, 3 and every vector `v`, `symm2vector(vector2symm(v))` agrees with `v` at every index
below `symm_dofs(d)`. -/
theorem symm2vector_vector2symm (v w : Vector α) (o : Matrix α) :
    (∀ i, i < symm_dofs 1 → symm2vector_1 (vector2symm_1 v o) i = v i) ∧
    (∀ i, i < symm_dofs 2 → symm2vector_2 (vector2symm_2 v o) w i = v i) ∧
    (∀ i, i < symm_dofs 3 → symm2vector_3 (vector2symm_3 v o) w i = v i) := by
  have h1 : symm_dofs 1 = 1 := rfl
  have h2 : symm_dofs 2 = 3 := rfl
  have h3 : symm_dofs 3 = 6 := rfl
  rw [h1, h2, h3]
  refine ⟨?_, ?_, ?_⟩
  · intro i hi
    interval_cases i
    simp [vector2symm_1, symm2vector_1, matrix_1x1, vector_1, setEntry]
  · intro i hi
    interval_cases i <;> simp [vector2symm_2, symm2vector_2, setEntry, Function.update]
  · intro i hi
    interval_cases i <;> simp [vector2symm_3, symm2vector_3, setEntry, Function.update]

/-- The packed vector `0, 1, 2, 3, 4, 5` decoded and packed again has its entry 4 back. -/
theorem symm2vector_vector2symm_witness :
    symm2vector_3 (vector2symm_3 (fun i => i) (fun _ _ => 9)) (fun _ => 7) 4 = 4 :=
  (symm2vector_vector2symm (fun i => i) (fun _ => 7) (fun _ _ => 9)).2.2 4 (by decide)

/-- C7. The decoded matrix is symmetric: for each size `d` in 1, 2, 3, every vector `v` and
every prior content of the local, `vector2symm(v)[i][j] = vector2symm(v)[j][i]` for all
`i, j < d`. -/
theorem vector2symm_symmetric (v : Vector α) (o : Matrix α) :
    (∀ i j, i < 1 → j < 1 → vector2symm_1 v o i j = vector2symm_1 v o j i) ∧
    (∀ i j, i < 2 → j < 2 → vector2symm_2 v o i j = vector2symm_2 v o j i) ∧
    (∀ i j, i < 3 → j < 3 → vector2symm_3 v o i j = vector2symm_3 v o j i) := by
  refine ⟨?_, ?_, ?_⟩
  · intro i j hi hj
    interval_cases i
    interval_cases j
    rfl
  · intro i j hi hj
    interval_cases i <;> interval_cases j <;>
      simp [vector2symm_2, setEntry, Function.update]
  · intro i j hi hj
    interval_cases i <;> interval_cases j <;>
      simp [vector2symm_3, setEntry, Function.update]

/-- The matrix decoded from `0, 1, 2, 3, 4, 5` has equal entries at (0, 1) and (1, 0). -/
theorem vector2symm_symmetric_witness :
    vector2symm_3 (fun i => i) (fun _ _ => 9) 0 1 = vector2symm_3 (fun i => i) (fun _ _ => 9) 1 0 :=
  (vector2symm_symmetric (fun i => i) (fun _ _ => 9)).2.2 0 1 (by decide) (by decide)

end Codec

/-! ## Loops -/

section Loops

theorem forLoop_of_le {σ : Type} {lo hi : Nat} (body : Nat → σ → σ) (s : σ) (h : hi ≤ lo) :
    forLoop lo hi body s = s := by
  simp [forLoop, Nat.sub_eq_zero_of_le h]

theorem forLoop_succ {σ : Type} {lo hi : Nat} (body : Nat → σ → σ) (s : σ) (h : lo ≤ hi) :
    forLoop lo (hi + 1) body s = body hi (forLoop lo hi body s) := by
  have e : hi + 1 - lo = (hi - lo) + 1 := by omega
  have e2 : lo + (hi - lo) = hi := by omega
  simp [forLoop, e, List.range'_concat, List.foldl_append, e2]

/-- Invariant rule for a counted loop: a property of (counter, state) that holds on entry and
is carried over by every iteration holds on exit. -/
theorem forLoop_invariant {σ : Type} (P : Nat → σ → Prop) {lo hi : Nat} (body : Nat → σ → σ)
    (s : σ) (hle : lo ≤ hi) (h0 : P lo s)
    (hstep : ∀ i t, lo ≤ i → i < hi → P i t → P (i + 1) (body i t)) :
    P hi (forLoop lo hi body s) := by
  induction hi, hle using Nat.le_induction with
  | base => simpa [forLoop_of_le body s (le_refl lo)] using h0
  | succ k hk ih =>
    rw [forLoop_succ body s hk]
    exact hstep k _ hk (Nat.lt_succ_self k)
      (ih (fun i t h1 h2 h3 => hstep i t h1 (Nat.lt_succ_of_lt h2) h3))

/-- An accumulation loop computes a finite sum. -/
theorem forLoop_sum {α : Type} [AddCommMonoid α] (lo hi : Nat) (f : Nat → α) (z : α) :
    forLoop lo hi (fun i acc => acc + f i) z = z + ∑ i in Finset.Ico lo hi, f i := by
  rcases Nat.le_total lo hi with h | h
  · refine forLoop_invariant (fun c t => t = z + ∑ i in Finset.Ico lo c, f i) _ z h (by simp) ?_
    intro i t h1 _ ht
    rw [ht, Finset.sum_Ico_succ_top h1, add_assoc]
  · rw [forLoop_of_le _ _ h, Finset.Ico_eq_empty_of_le h]; simp

/-- A loop that rewrites cell `i` from its own old value in iteration `i`. -/
theorem forLoop_update {T : Type} (lo hi : Nat) (g : Nat → T → T) (v : Few T) :
    forLoop lo hi (fun i w => Function.update w i (g i (w i))) v
      = fun i => if lo ≤ i ∧ i < hi then g i (v i) else v i := by
  rcases Nat.le_total lo hi with h | h
  · refine forLoop_invariant
      (fun c w => w = fun i => if lo ≤ i ∧ i < c then g i (v i) else v i) _ v h ?_ ?_
    · funext i; have : ¬ (lo ≤ i ∧ i < lo) := by omega
      simp [this]
    · intro c w h1 _ hw
      subst hw
      funext i
      by_cases hic : i = c
      · subst hic; simp [h1]
      · rw [Function.update_noteq hic]
        have : (lo ≤ i ∧ i < c + 1) ↔ (lo ≤ i ∧ i < c) := by omega
        simp only [this]
  · rw [forLoop_of_le _ _ h]; funext i
    have : ¬ (lo ≤ i ∧ i < hi) := by omega
    simp [this]

/-- A loop over the rows of one column `j` acts on that column alone. -/
theorem forLoop_setEntry {α : Type} (lo hi j : Nat) (g : Nat → α → α) (a : Matrix α) :
    forLoop lo hi (fun i b => setEntry b j i (g i (b j i))) a
      = Function.update a j (fun i => if lo ≤ i ∧ i < hi then g i (a j i) else a j i) := by
  rw [← forLoop_update lo hi g (a j)]
  rcases Nat.le_total lo hi with h | h
  · refine forLoop_invariant
      (fun c b => b = Function.update a j
        (forLoop lo c (fun i w => Function.update w i (g i (w i))) (a j))) _ a h ?_ ?_
    · simp [forLoop_of_le]
    · intro c b h1 _ hb
      subst hb
      rw [forLoop_succ _ _ h1]
      simp [setEntry]
  · simp [forLoop_of_le _ _ h]

/-- Entry form of `forLoop_setEntry`. -/
theorem forLoop_setEntry_apply {α : Type} (lo hi j : Nat) (g : Nat → α → α) (a : Matrix α)
    (p q : Nat) :
    forLoop lo hi (fun i b => setEntry b j i (g i (b j i))) a p q
      = if p = j ∧ lo ≤ q ∧ q < hi then g q (a j q) else a p q := by
  rw [forLoop_setEntry]
  by_cases hp : p = j
  · subst hp; simp
  · simp [Function.update_noteq hp, hp]

end Loops

/-! ## Closed forms of the algebra layer -/

section MathForms

variable {α : Type}

theorem setEntry_apply (a : Matrix α) (j i : Nat) (x : α) (p q : Nat) :
    setEntry a j i x p q = if p = j ∧ q = i then x else a p q := by
  unfold setEntry
  by_cases hp : p = j
  · subst hp
    by_cases hq : q = i
    · subst hq; simp
    · simp [Function.update_noteq hq, hq]
  · simp [Function.update_noteq hp, hp]

/-- The matrix-vector product is the weighted sum of the columns. -/
theorem mulVec_apply [Semiring α] (n : Nat) (hn : 1 ≤ n) (a : Matrix α) (b : Vector α)
    (i : Nat) : mulVec n a b i = ∑ j in Finset.range n, a j i * b j := by
  have key : mulVec n a b = fun i => ∑ j in Finset.range n, a j i * b j := by
    unfold mulVec
    refine forLoop_invariant
      (fun c t => t = fun i => ∑ j in Finset.range c, a j i * b j) _ _ hn ?_ ?_
    · funext i; simp [Vector.scale]
    · intro c t _ _ ht
      subst ht
      funext i
      simp [Vector.add, Vector.scale, Finset.sum_range_succ]
  rw [key]

theorem mulMat_apply [Add α] [Mul α] (n p : Nat) (a b c : Matrix α) (j : Nat) :
    mulMat n p a b c j = if j < n then mulVec p a (b j) else c j := by
  unfold mulMat
  rw [forLoop_update 0 n (fun j _ => mulVec p a (b j)) c]
  simp

theorem transpose_apply (m n : Nat) (a b : Matrix α) (i j : Nat) :
    transpose m n a b i j = if i < m ∧ j < n then a j i else b i j := by
  unfold transpose
  have h : ∀ (i : Nat) (b : Matrix α),
      forLoop 0 n (fun j b => setEntry b i j (a j i)) b
        = Function.update b i (fun j => if 0 ≤ j ∧ j < n then a j i else b i j) :=
    fun i b => forLoop_setEntry 0 n i (fun j _ => a j i) b
  simp only [h]
  rw [forLoop_update 0 m (fun i col => fun j => if 0 ≤ j ∧ j < n then a j i else col j) b]
  by_cases hi : i < m <;> by_cases hj : j < n <;> simp [hi, hj]

theorem identity_matrix_apply [Zero α] [One α] (m n : Nat) (a : Matrix α) (j i : Nat) :
    identity_matrix m n a j i = if j < n ∧ i < m then (if i = j then 1 else 0) else a j i := by
  unfold identity_matrix identity_matrix_mn
  have h : ∀ (j : Nat) (a : Matrix α),
      forLoop 0 m (fun i a => setEntry a j i (if i = j then 1 else 0)) a
        = Function.update a j
            (fun i => if 0 ≤ i ∧ i < m then (if i = j then (1 : α) else 0) else a j i) :=
    fun j a => forLoop_setEntry 0 m j (fun i _ => if i = j then (1 : α) else 0) a
  simp only [h]
  rw [forLoop_update 0 n
    (fun j col => fun i => if 0 ≤ i ∧ i < m then (if i = j then (1 : α) else 0) else col i) a]
  by_cases hi : i < m <;> by_cases hj : j < n <;> simp [hi, hj]

theorem metric_eigenvalues_apply [One α] [Mul α] [Div α] (dim : Nat) (h l : Vector α)
    (i : Nat) : metric_eigenvalues dim h l i = if i < dim then 1 / square (h i) else l i := by
  unfold metric_eigenvalues
  rw [forLoop_update 0 dim (fun i _ => 1 / square (h i)) l]
  simp

/-- Inner loop of the zeroing pass of `diagonal`. -/
theorem diagonal_inner [Zero α] (m i : Nat) (a : Matrix α) (p q : Nat) :
    forLoop (i + 1) m (fun j a => setEntry (setEntry a j i 0) i j 0) a p q
      = if (p = i ∧ i < q ∧ q < m) ∨ (q = i ∧ i < p ∧ p < m) then 0 else a p q := by
  rcases Nat.le_total (i + 1) m with h | h
  · revert p q
    refine forLoop_invariant
      (fun c t => ∀ p q, t p q =
        if (p = i ∧ i < q ∧ q < c) ∨ (q = i ∧ i < p ∧ p < c) then 0 else a p q) _ a h ?_ ?_
    · intro p q
      have : ¬ ((p = i ∧ i < q ∧ q < i + 1) ∨ (q = i ∧ i < p ∧ p < i + 1)) := by omega
      simp [this]
    · intro c t h1 _ ht p q
      rw [setEntry_apply, setEntry_apply, ht p q]
      split_ifs <;> first | rfl | (exfalso; omega)
  · rw [forLoop_of_le _ _ h]
    have : ¬ ((p = i ∧ i < q ∧ q < m) ∨ (q = i ∧ i < p ∧ p < m)) := by omega
    simp [this]

/-- Within its extent `diagonal(v)` has `v` on the diagonal and zero elsewhere. -/
theorem diagonal_apply [Zero α] (m : Nat) (v : Vector α) (a : Matrix α) (p q : Nat)
    (hp : p < m) (hq : q < m) : diagonal m v a p q = if p = q then v p else 0 := by
  unfold diagonal
  have hz : ∀ p q,
      forLoop 0 m
        (fun i a => forLoop (i + 1) m (fun j a => setEntry (setEntry a j i 0) i j 0) a) a p q
        = if (p < q ∧ q < m) ∨ (q < p ∧ p < m) then 0 else a p q := by
    have := forLoop_invariant
      (fun c (t : Matrix α) => ∀ p q, t p q =
        if (p < q ∧ p < c ∧ q < m) ∨ (q < p ∧ q < c ∧ p < m) then 0 else a p q)
      (fun i a => forLoop (i + 1) m (fun j a => setEntry (setEntry a j i 0) i j 0) a) a
      (Nat.zero_le m) (by intro p q; simp) (by
        intro c t _ _ ht p q
        dsimp only
        rw [diagonal_inner, ht p q]
        split_ifs <;> first | rfl | (exfalso; omega))
    intro p q
    rw [this p q]
    split_ifs <;> first | rfl | (exfalso; omega)
  have hd := forLoop_invariant
    (fun c (t : Matrix α) => ∀ p q, t p q =
      if p = q ∧ p < c then v p else
        forLoop 0 m
          (fun i a => forLoop (i + 1) m (fun j a => setEntry (setEntry a j i 0) i j 0) a) a p q)
    (fun i a => setEntry a i i (v i))
    (forLoop 0 m
      (fun i a => forLoop (i + 1) m (fun j a => setEntry (setEntry a j i 0) i j 0) a) a)
    (Nat.zero_le m) (by intro p q; simp) (by
      intro c t _ _ ht p q
      dsimp only
      rw [setEntry_apply, ht p q]
      by_cases h1 : p = c ∧ q = c
      · obtain ⟨rfl, rfl⟩ := h1; simp
      · have e : (p = q ∧ p < c + 1) ↔ (p = q ∧ p < c) := by omega
        simp only [h1, if_false, e])
  rw [hd p q, hz p q]
  split_ifs <;> first | rfl | (exfalso; omega)

/-- Entries of `compose_metric(r, h)` within the extent. -/
theorem compose_metric_apply [Field α] (dim : Nat) (hdim : 1 ≤ dim) (r : Matrix α)
    (h l : Vector α) (d t c1 c2 : Matrix α) (j i : Nat) (hj : j < dim) :
    compose_metric dim r h l d t c1 c2 j i
      = ∑ k in Finset.range dim, r k i * (1 / square (h k)) * r k j := by
  unfold compose_metric
  simp only [mulMat_apply, hj, if_true]
  rw [mulVec_apply dim hdim]
  refine Finset.sum_congr rfl (fun k hk => ?_)
  have hk' : k < dim := Finset.mem_range.mp hk
  rw [mulMat_apply, if_pos hk', mulVec_apply dim hdim, transpose_apply]
  simp only [hj, hk', and_self, if_true]
  have : ∑ x in Finset.range dim, r x i * diagonal dim (metric_eigenvalues dim h l) d k x
      = r k i * (1 / square (h k)) := by
    rw [Finset.sum_eq_single k]
    · rw [diagonal_apply _ _ _ _ _ hk' hk', metric_eigenvalues_apply]; simp [hk']
    · intro b hb hbk
      rw [diagonal_apply _ _ _ _ _ hk' (Finset.mem_range.mp hb)]
      simp [Ne.symm hbk]
    · intro hk2; exact absurd hk hk2
  rw [this]

end MathForms

end Omega_h

/-- A square array whose columns are orthonormal has orthonormal rows (`RᵗR = I` gives
`RRᵗ = I`). -/
theorem rows_orthonormal_of_columns_orthonormal {α : Type} [CommRing α] (n : ℕ)
    (r : ℕ → ℕ → α)
    (h : ∀ j j', j < n → j' < n →
      ∑ i in Finset.range n, r j i * r j' i = if j = j' then 1 else 0) :
    ∀ i i', i < n → i' < n →
      ∑ k in Finset.range n, r k i * r k i' = if i = i' then 1 else 0 := by
  let A : Matrix (Fin n) (Fin n) α := fun i k => r k i
  have h1 : A.transpose * A = 1 := by
    ext k k'
    simp only [Matrix.mul_apply, Matrix.transpose_apply, A, Matrix.one_apply]
    have := h k k' k.2 k'.2
    rw [Finset.sum_range] at this
    rw [this]
    simp [Fin.ext_iff]
  have h2 : A * A.transpose = 1 := Matrix.mul_eq_one_comm.mp h1
  intro i i' hi hi'
  have := congrFun (congrFun h2 ⟨i, hi⟩) ⟨i', hi'⟩
  simp only [Matrix.mul_apply, Matrix.transpose_apply, A, Matrix.one_apply] at this
  rw [Finset.sum_range, this]
  simp [Fin.ext_iff]

namespace Omega_h

/-! ## Metric composition and cross product -/

section Metric

variable {α : Type}

/-- The quadratic form of `compose_metric(r, h)` is the weighted sum of squares of the
coordinates of `x` along the columns of `r`. -/
theorem compose_metric_quadratic [Field α] (dim : Nat) (hdim : 1 ≤ dim) (r : Matrix α)
    (h l : Vector α) (d t c1 c2 : Matrix α) (x : Vector α) :
    ∑ i in Finset.range dim, x i * mulVec dim (compose_metric dim r h l d t c1 c2) x i
      = ∑ k in Finset.range dim,
          (1 / square (h k)) * square (∑ i in Finset.range dim, r k i * x i) := by
  have e1 : ∀ i, mulVec dim (compose_metric dim r h l d t c1 c2) x i
      = ∑ j in Finset.range dim,
          (∑ k in Finset.range dim, r k i * (1 / square (h k)) * r k j) * x j := by
    intro i
    rw [mulVec_apply dim hdim]
    refine Finset.sum_congr rfl (fun j hj => ?_)
    rw [compose_metric_apply dim hdim r h l d t c1 c2 j i (Finset.mem_range.mp hj)]
  simp only [e1, square, Finset.mul_sum, Finset.sum_mul]
  rw [Finset.sum_comm]
  rw [Finset.sum_congr rfl (fun j _ => Finset.sum_comm)]
  rw [Finset.sum_comm]
  refine Finset.sum_congr rfl (fun k _ => ?_)
  rw [Finset.sum_comm]
  refine Finset.sum_congr rfl (fun i _ => ?_)
  refine Finset.sum_congr rfl (fun j _ => ?_)
  ring

/-- C8. `compose_metric` builds a symmetric positive-definite tensor: for `dim ≥ 1`, `r` with
orthonormal columns and `h` with strictly positive entries, the result is the product
`r * diagonal(metric_eigenvalues(h)) * transpose(r)`, it is symmetric within its extent, and
`xᵗ M x > 0` for every `x` with a non-zero entry. -/
theorem compose_metric_spd [LinearOrderedField α] (dim : Nat) (hdim : 1 ≤ dim) (r : Matrix α)
    (h : Vector α)
    (hr : ∀ j j', j < dim → j' < dim →
      ∑ i in Finset.range dim, r j i * r j' i = if j = j' then 1 else 0)
    (hh : ∀ k, k < dim → 0 < h k) (l : Vector α) (d t c1 c2 : Matrix α) :
    compose_metric dim r h l d t c1 c2
        = mulMat dim dim (mulMat dim dim r (diagonal dim (metric_eigenvalues dim h l) d) c1)
            (transpose dim dim r t) c2 ∧
      (∀ i j, i < dim → j < dim →
        compose_metric dim r h l d t c1 c2 i j = compose_metric dim r h l d t c1 c2 j i) ∧
      (∀ x : Vector α, (∃ i, i < dim ∧ x i ≠ 0) →
        0 < ∑ i in Finset.range dim,
              x i * mulVec dim (compose_metric dim r h l d t c1 c2) x i) := by
  refine ⟨rfl, ?_, ?_⟩
  · intro i j hi hj
    rw [compose_metric_apply dim hdim r h l d t c1 c2 i j hi,
      compose_metric_apply dim hdim r h l d t c1 c2 j i hj]
    exact Finset.sum_congr rfl (fun k _ => by ring)
  · intro x hx
    rw [compose_metric_quadratic dim hdim]
    have hl : ∀ k, k < dim → 0 < 1 / square (h k) := fun k hk =>
      one_div_pos.mpr (mul_pos (hh k hk) (hh k hk))
    have hrow := rows_orthonormal_of_columns_orthonormal dim r hr
    have hy : ∃ k, k < dim ∧ ∑ i in Finset.range dim, r k i * x i ≠ 0 := by
      by_contra hne
      push_neg at hne
      obtain ⟨i, hi, hxi⟩ := hx
      apply hxi
      have e : x i = ∑ k in Finset.range dim,
          r k i * ∑ i' in Finset.range dim, r k i' * x i' := by
        simp only [Finset.mul_sum]
        rw [Finset.sum_comm]
        have e2 : ∀ i' ∈ Finset.range dim,
            ∑ k in Finset.range dim, r k i * (r k i' * x i')
              = (if i = i' then 1 else 0) * x i' := by
          intro i' hi'
          rw [← hrow i i' hi (Finset.mem_range.mp hi'), Finset.sum_mul]
          exact Finset.sum_congr rfl (fun k _ => by ring)
        rw [Finset.sum_congr rfl e2]
        simp [Finset.sum_ite_eq, hi]
      rw [e]
      exact Finset.sum_eq_zero (fun k hk => by rw [hne k (Finset.mem_range.mp hk), mul_zero])
    obtain ⟨k, hk, hyk⟩ := hy
    refine Finset.sum_pos' (fun k' hk' => ?_) ⟨k, Finset.mem_range.mpr hk, ?_⟩
    · exact mul_nonneg (le_of_lt (hl k' (Finset.mem_range.mp hk'))) (mul_self_nonneg _)
    · exact mul_pos (hl k hk) (mul_self_pos.mpr hyk)

/-- C9. Metric composition consistency: for `dim ≥ 1`, `compose_metric` of the identity
matrix and a vector `h` whose entries are all 1 has 1 on the diagonal and 0 elsewhere. -/
theorem compose_metric_identity [Field α] (dim : Nat) (hdim : 1 ≤ dim) (h : Vector α)
    (hh : ∀ k, k < dim → h k = 1) (a : Matrix α) (l : Vector α) (d t c1 c2 : Matrix α)
    (j i : Nat) (hj : j < dim) (hi : i < dim) :
    compose_metric dim (identity_matrix dim dim a) h l d t c1 c2 j i
      = if i = j then 1 else 0 := by
  rw [compose_metric_apply dim hdim _ h l d t c1 c2 j i hj]
  have e : ∀ k ∈ Finset.range dim,
      identity_matrix dim dim a k i * (1 / square (h k)) * identity_matrix dim dim a k j
        = if i = k then (if j = k then 1 else 0) else 0 := by
    intro k hk
    have hk' := Finset.mem_range.mp hk
    rw [identity_matrix_apply, identity_matrix_apply, hh k hk']
    by_cases h1 : i = k <;> by_cases h2 : j = k <;> simp [h1, h2, hk', hi, hj, square]
  rw [Finset.sum_congr rfl e, Finset.sum_ite_eq]
  simp only [Finset.mem_range, hi, if_true]
  by_cases hij : i = j
  · simp [hij]
  · simp [hij, Ne.symm hij]

end Metric

section MetricWitness

/-- The rotation with columns `(3/5, 4/5)` and `(-4/5, 3/5)` and the lengths `1, 2` give a
tensor whose quadratic form is positive at `x = (1, -1)`. -/
theorem compose_metric_spd_witness :
    0 < ∑ i in Finset.range 2,
      (fun i => if i = 0 then (1 : ℚ) else -1) i *
        mulVec 2
          (compose_metric 2
            (fun j i => if j = 0 then (if i = 0 then (3 / 5 : ℚ) else 4 / 5)
              else (if i = 0 then -4 / 5 else 3 / 5))
            (fun k => if k = 0 then 1 else 2) (fun _ => 0) (fun _ _ => 0) (fun _ _ => 0)
            (fun _ _ => 0) (fun _ _ => 0))
          (fun i => if i = 0 then (1 : ℚ) else -1) i :=
  (compose_metric_spd 2 (by decide)
    (fun j i => if j = 0 then (if i = 0 then (3 / 5 : ℚ) else 4 / 5)
      else (if i = 0 then -4 / 5 else 3 / 5))
    (fun k => if k = 0 then 1 else 2)
    (by
      intro j j' hj hj'
      interval_cases j <;> interval_cases j' <;> norm_num [Finset.sum_range_succ])
    (by
      intro k hk
      interval_cases k <;> norm_num)
    (fun _ => 0) (fun _ _ => 0) (fun _ _ => 0) (fun _ _ => 0) (fun _ _ => 0)).2.2
    (fun i => if i = 0 then (1 : ℚ) else -1) ⟨0, by decide, by norm_num⟩

/-- With `dim = 2` and `h = (1, 1)` the composed metric has 0 at row 1 of column 0. -/
theorem compose_metric_identity_witness :
    compose_metric 2 (identity_matrix 2 2 (fun _ _ => (5 : ℚ))) (fun _ => 1) (fun _ => 0)
      (fun _ _ => 0) (fun _ _ => 0) (fun _ _ => 0) (fun _ _ => 0) 0 1
      = if 1 = 0 then 1 else 0 :=
  compose_metric_identity 2 (by decide) (fun _ => 1) (fun _ _ => rfl) (fun _ _ => (5 : ℚ))
    (fun _ => 0) (fun _ _ => 0) (fun _ _ => 0) (fun _ _ => 0) (fun _ _ => 0) 0 1
    (by decide) (by decide)

end MetricWitness

section Cross

variable {α : Type}

/-- C10. The one-argument `cross` is the matrix of the cross-product operator:
`cross(a) * b` agrees with `cross(a, b)` at the three indices, `cross(a)` is skew-symmetric
within its extent, and `cross([1,0,0], [0,1,0])` is `[0,0,1]`. -/
theorem cross_mulVec [CommRing α] (a b : Vector α) (o : Matrix α) :
    (∀ i, i < 3 → mulVec 3 (cross a o) b i = cross2 a b i) ∧
    (∀ i j, i < 3 → j < 3 → cross a o i j = -cross a o j i) ∧
    (∀ i, i < 3 →
      mulVec 3 (cross (vector_3 (1 : α) 0 0) o) (vector_3 0 1 0) i = vector_3 0 0 1 i) ∧
    cross2 (vector_3 (1 : α) 0 0) (vector_3 0 1 0) = vector_3 0 0 1 := by
  have h1 : ∀ (a b : Vector α) (i : Nat), i < 3 →
      mulVec 3 (cross a o) b i = cross2 a b i := by
    intro a b i hi
    rw [mulVec_apply 3 (by decide)]
    interval_cases i <;>
      simp [Finset.sum_range_succ, cross, cross2, matrix_3x3, vector_3, Function.update] <;>
      ring
  have h3 : cross2 (vector_3 (1 : α) 0 0) (vector_3 0 1 0) = vector_3 0 0 1 := by
    funext i
    simp [cross2, vector_3]
  refine ⟨h1 a b, ?_, ?_, h3⟩
  · intro i j hi hj
    interval_cases i <;> interval_cases j <;>
      simp [cross, matrix_3x3, vector_3, Function.update]
  · intro i hi
    rw [h1 _ _ i hi, h3]

/-- Over the rationals, row 2 of `cross([1,0,0]) * [0,1,0]` is row 2 of
`cross([1,0,0], [0,1,0])`. -/
theorem cross_mulVec_witness :
    mulVec 3 (cross (vector_3 (1 : ℚ) 0 0) (fun _ _ => 0)) (vector_3 0 1 0) 2
      = cross2 (vector_3 (1 : ℚ) 0 0) (vector_3 0 1 0) 2 :=
  (cross_mulVec (vector_3 (1 : ℚ) 0 0) (vector_3 0 1 0) (fun _ _ => 0)).1 2 (by decide)

end Cross

/-! ## Closed forms of the Householder routines -/

section QRForms

variable {α : Type} [LinearOrderedField α]

theorem forLoopM_succ {σ : Type} {lo hi : Nat} (body : Nat → σ → Option σ) (s : σ)
    (h : lo ≤ hi) :
    forLoopM lo (hi + 1) body s = (forLoopM lo hi body s).bind (body hi) := by
  have e : hi + 1 - lo = (hi - lo) + 1 := by omega
  have e2 : lo + (hi - lo) = hi := by omega
  simp [forLoopM, e, List.range'_concat, List.foldlM_append, e2]

theorem forLoopM_of_le {σ : Type} {lo hi : Nat} (body : Nat → σ → Option σ) (s : σ)
    (h : hi ≤ lo) : forLoopM lo hi body s = some s := by
  simp [forLoopM, Nat.sub_eq_zero_of_le h]

/-- A loop whose first iteration faults, faults. -/
theorem forLoopM_first_none {σ : Type} {lo hi : Nat} (body : Nat → σ → Option σ) (s : σ)
    (h : lo < hi) (hb : body lo s = none) : forLoopM lo hi body s = none := by
  have e : hi - lo = (hi - lo - 1) + 1 := by omega
  unfold forLoopM
  rw [e, List.range'_succ]
  simp [List.foldlM, hb]

theorem sign_mul_self (t : α) : sign t * sign t = 1 := by
  unfold sign
  split_ifs <;> simp

/-- Entries of the local `v_k` after line 20 of `get_householder_vector`. -/
theorem householder_candidate_apply (sqrt : α → α) (m : Nat) (a : Matrix α) (k o : Nat)
    (v_k : Vector α) (i : Nat) :
    householder_candidate sqrt m a k o v_k i
      = if i = k + o then
          (if (k + o) % 256 ≤ k + o ∧ k + o < m then a k (k + o) else v_k (k + o))
            + sign (a k (k + o))
              * sqrt (∑ i in Finset.Ico ((k + o) % 256) m, square (a k i))
        else if (k + o) % 256 ≤ i ∧ i < m then a k i else v_k i := by
  unfold householder_candidate
  simp only [forLoop_sum, zero_add]
  rw [forLoop_update ((k + o) % 256) m (fun i _ => a k i) v_k]
  by_cases h : i = k + o
  · subst h; simp
  · simp [Function.update_noteq h, h]

theorem householder_divisor_eq (sqrt : α → α) (m : Nat) (a : Matrix α) (k o : Nat)
    (v_k : Vector α) :
    householder_divisor sqrt m a k o v_k
      = sqrt (∑ i in Finset.Ico ((k + o) % 256) m,
          square (householder_candidate sqrt m a k o v_k i)) := by
  unfold householder_divisor
  simp only [forLoop_sum, zero_add]

theorem get_householder_vector_eq (sqrt : α → α) (m n : Nat) (a : Matrix α) (k o : Nat)
    (v_k : Vector α) (hk : k < n) (hko : k + o < m) :
    get_householder_vector sqrt m n a k o v_k
      = some (fun i =>
          if (k + o) % 256 ≤ i ∧ i < m then
            householder_candidate sqrt m a k o v_k i / householder_divisor sqrt m a k o v_k
          else householder_candidate sqrt m a k o v_k i) := by
  unfold get_householder_vector
  rw [if_pos ⟨hk, hko⟩]
  simp only
  rw [forLoop_update ((k + o) % 256) m
    (fun _ x => x / householder_divisor sqrt m a k o v_k)]

/-- Entries of the matrix left by `reflect_columns`. -/
theorem reflect_columns_apply (m n : Nat) (a : Matrix α) (v_k : Vector α) (k o : Nat)
    (p q : Nat) :
    reflect_columns m n a v_k k o p q
      = if p < n ∧ (k + o) % 256 ≤ q ∧ q < m then
          a p q - 2 * (∑ i in Finset.Ico ((k + o) % 256) m, a p i * v_k i) * v_k q
        else a p q := by
  unfold reflect_columns
  simp only [forLoop_sum, zero_add]
  have h : ∀ (j : Nat) (a : Matrix α),
      forLoop ((k + o) % 256) m
          (fun i b => setEntry b j i
            (b j i - 2 * (∑ i in Finset.Ico ((k + o) % 256) m, a j i * v_k i) * v_k i)) a
        = Function.update a j
            ((fun col : Vector α => fun i =>
              if (k + o) % 256 ≤ i ∧ i < m then
                col i - 2 * (∑ i in Finset.Ico ((k + o) % 256) m, col i * v_k i) * v_k i
              else col i) (a j)) :=
    fun j a => forLoop_setEntry ((k + o) % 256) m j
      (fun i x => x - 2 * (∑ i in Finset.Ico ((k + o) % 256) m, a j i * v_k i) * v_k i) a
  simp only [h]
  rw [forLoop_update 0 n (fun _ (col : Vector α) => fun i =>
      if (k + o) % 256 ≤ i ∧ i < m then
        col i - 2 * (∑ i in Finset.Ico ((k + o) % 256) m, col i * v_k i) * v_k i
      else col i) a]
  by_cases hp : p < n
  · simp [hp]
  · simp [hp]

end QRForms

section Householder

variable {α : Type} [LinearOrderedField α]

/-- The algebra behind a Householder reflection: with `N² = x₀² + T`, `s² = 1` and
`D² = (x₀ + sN)² + T ≠ 0`, an entry `y` below the pivot is cancelled. -/
theorem householder_cancel (x0 T N D s y : α) (hN : N * N = x0 * x0 + T) (hs : s * s = 1)
    (hD : D * D = (x0 + s * N) * (x0 + s * N) + T) (hD0 : D ≠ 0) :
    y - 2 * ((x0 * (x0 + s * N) + T) / D) * (y / D) = 0 := by
  have h2 : D * D = 2 * (x0 * (x0 + s * N) + T) := by
    linear_combination hD + N * N * hs + hN
  field_simp
  rw [← h2]
  ring

/-- After the reflection built from column `k`, that column is zero below row `k`, provided
the divisor of the normalisation is not zero. -/
theorem householder_column_zero (sqrt : α → α) (hsq : ∀ x, 0 ≤ x → sqrt x * sqrt x = x)
    (m : Nat) (a : Matrix α) (k : Nat) (v_k : Vector α) (hk : k < 256)
    (hD : householder_divisor sqrt m a k 0 v_k ≠ 0) (i : Nat) (hki : k < i) (him : i < m) :
    a k i - 2 * (∑ i' in Finset.Ico k m,
        a k i' * (householder_candidate sqrt m a k 0 v_k i'
          / householder_divisor sqrt m a k 0 v_k))
      * (householder_candidate sqrt m a k 0 v_k i / householder_divisor sqrt m a k 0 v_k)
      = 0 := by
  have hkm : k < m := lt_trans hki him
  have hmod : (k + 0) % 256 = k := Nat.mod_eq_of_lt hk
  have hmod' : k % 256 = k := Nat.mod_eq_of_lt hk
  have hsum_nonneg : ∀ f : Nat → α, 0 ≤ ∑ i in Finset.Ico k m, square (f i) :=
    fun f => Finset.sum_nonneg (fun i _ => mul_self_nonneg (f i))
  -- the candidate vector on the sub-column
  have hc0 : householder_candidate sqrt m a k 0 v_k k
      = a k k + sign (a k k) * sqrt (∑ i in Finset.Ico k m, square (a k i)) := by
    rw [householder_candidate_apply]
    simp [hmod', hkm]
  have hc : ∀ i', k < i' → i' < m → householder_candidate sqrt m a k 0 v_k i' = a k i' := by
    intro i' h1 h2
    rw [householder_candidate_apply]
    have : i' ≠ k := by omega
    simp [hmod', this, le_of_lt h1, h2]
  have hN : sqrt (∑ i in Finset.Ico k m, square (a k i))
        * sqrt (∑ i in Finset.Ico k m, square (a k i))
      = a k k * a k k + ∑ i' in Finset.Ico (k + 1) m, square (a k i') := by
    rw [hsq _ (hsum_nonneg (a k)), Finset.sum_eq_sum_Ico_succ_bot hkm]
    rfl
  have htail : ∑ i' in Finset.Ico (k + 1) m,
      square (householder_candidate sqrt m a k 0 v_k i')
        = ∑ i' in Finset.Ico (k + 1) m, square (a k i') :=
    Finset.sum_congr rfl (fun i' hi' => by
      rw [hc i' (by have := (Finset.mem_Ico.mp hi').1; omega) (Finset.mem_Ico.mp hi').2])
  have hDD : householder_divisor sqrt m a k 0 v_k * householder_divisor sqrt m a k 0 v_k
      = (a k k + sign (a k k) * sqrt (∑ i in Finset.Ico k m, square (a k i)))
          * (a k k + sign (a k k) * sqrt (∑ i in Finset.Ico k m, square (a k i)))
        + ∑ i' in Finset.Ico (k + 1) m, square (a k i') := by
    rw [householder_divisor_eq, hmod,
      hsq _ (hsum_nonneg (householder_candidate sqrt m a k 0 v_k)),
      Finset.sum_eq_sum_Ico_succ_bot hkm, hc0, htail]
    rfl
  have hdot : ∑ i' in Finset.Ico k m,
      a k i' * (householder_candidate sqrt m a k 0 v_k i'
        / householder_divisor sqrt m a k 0 v_k)
      = (a k k * (a k k + sign (a k k) * sqrt (∑ i in Finset.Ico k m, square (a k i)))
          + ∑ i' in Finset.Ico (k + 1) m, square (a k i'))
        / householder_divisor sqrt m a k 0 v_k := by
    have ht : ∑ i' in Finset.Ico (k + 1) m,
        a k i' * (householder_candidate sqrt m a k 0 v_k i'
          / householder_divisor sqrt m a k 0 v_k)
        = (∑ i' in Finset.Ico (k + 1) m, square (a k i'))
          / householder_divisor sqrt m a k 0 v_k := by
      rw [Finset.sum_div]
      refine Finset.sum_congr rfl (fun i' hi' => ?_)
      rw [hc i' (by have := (Finset.mem_Ico.mp hi').1; omega) (Finset.mem_Ico.mp hi').2,
        square, mul_div_assoc]
    rw [Finset.sum_eq_sum_Ico_succ_bot hkm, hc0, ht]
    ring
  rw [hdot, hc i hki him]
  exact householder_cancel _ _ _ _ _ _ hN (sign_mul_self _) hDD hD

end Householder

/-! ## The factorization loop -/

section Factorize

variable {α : Type} [LinearOrderedField α]

theorem factorize_upto_zero (sqrt : α → α) (m n : Nat) (a : Matrix α)
    (v u : Few (Vector α)) : factorize_upto sqrt m n a v u 0 = some (a, v) :=
  forLoopM_of_le _ _ (le_refl 0)

theorem factorize_upto_succ (sqrt : α → α) (m n : Nat) (a : Matrix α)
    (v u : Few (Vector α)) (c : Nat) :
    factorize_upto sqrt m n a v u (c + 1)
      = (factorize_upto sqrt m n a v u c).bind (factorize_step sqrt m n u c) :=
  forLoopM_succ _ _ (Nat.zero_le c)

/-- An iteration with `k < n` and `k < m` does not fault; its result in closed form. -/
theorem factorize_step_eq (sqrt : α → α) (m n : Nat) (u : Few (Vector α)) (k : Nat)
    (s : Matrix α × Few (Vector α)) (hk : k < n) (hkm : k < m) :
    factorize_step sqrt m n u k s
      = some
          (reflect_columns m n s.1
            (fun i =>
              if (k + 0) % 256 ≤ i ∧ i < m then
                householder_candidate sqrt m s.1 k 0 (u k) i
                  / householder_divisor sqrt m s.1 k 0 (u k)
              else householder_candidate sqrt m s.1 k 0 (u k) i) k 0,
           Function.update s.2 k
            (fun i =>
              if (k + 0) % 256 ≤ i ∧ i < m then
                householder_candidate sqrt m s.1 k 0 (u k) i
                  / householder_divisor sqrt m s.1 k 0 (u k)
              else householder_candidate sqrt m s.1 k 0 (u k) i)) := by
  unfold factorize_step
  rw [get_householder_vector_eq sqrt m n s.1 k 0 (u k) hk (by omega)]
  rfl

/-- With `n ≤ m` no iteration of the factorization faults. -/
theorem factorize_upto_isSome (sqrt : α → α) (m n : Nat) (hnm : n ≤ m) (a : Matrix α)
    (v u : Few (Vector α)) (c : Nat) (hc : c ≤ n) :
    ∃ s, factorize_upto sqrt m n a v u c = some s := by
  induction c with
  | zero => exact ⟨_, factorize_upto_zero sqrt m n a v u⟩
  | succ c ih =>
    obtain ⟨s, hs⟩ := ih (Nat.le_of_succ_le hc)
    rw [factorize_upto_succ, hs, Option.some_bind,
      factorize_step_eq sqrt m n u c s (by omega) (by omega)]
    exact ⟨_, rfl⟩

/-- After `c` iterations none of which divided by zero, the first `c` columns are zero below
the diagonal. -/
theorem factorize_upto_lower_zero (sqrt : α → α)
    (hsq : ∀ x, 0 ≤ x → sqrt x * sqrt x = x) (m n : Nat) (hnm : n ≤ m) (hm : m < 256)
    (a : Matrix α) (v u : Few (Vector α)) (c : Nat) (hc : c ≤ n)
    (hdiv : ∀ k, k < c → ∀ s, factorize_upto sqrt m n a v u k = some s →
      householder_divisor sqrt m s.1 k 0 (u k) ≠ 0)
    (s : Matrix α × Few (Vector α))
    (hs : factorize_upto sqrt m n a v u c = some s) (j i : Nat) (hj : j < c) (hji : j < i)
    (hi : i < m) : s.1 j i = 0 := by
  induction c generalizing s j i with
  | zero => exact absurd hj (Nat.not_lt_zero j)
  | succ c ih =>
    have hcn : c < n := hc
    obtain ⟨t, ht⟩ := factorize_upto_isSome sqrt m n hnm a v u c (le_of_lt hcn)
    rw [factorize_upto_succ, ht, Option.some_bind,
      factorize_step_eq sqrt m n u c t hcn (by omega)] at hs
    have hmod : (c + 0) % 256 = c := Nat.mod_eq_of_lt (by omega)
    have hs1 := congrArg Prod.fst (Option.some.inj hs)
    simp only at hs1
    rw [← hs1, reflect_columns_apply, hmod]
    rcases Nat.lt_or_ge j c with hjc | hjc
    · -- an earlier column: the reflection leaves it as it is
      have hz : ∀ i', j < i' → i' < m → t.1 j i' = 0 :=
        fun i' h1 h2 =>
          ih (le_of_lt hcn) (fun k hk => hdiv k (Nat.lt_succ_of_lt hk)) t ht j i' hjc h1 h2
      have hdot : ∑ i' in Finset.Ico c m,
          t.1 j i' * (fun i =>
            if c ≤ i ∧ i < m then
              householder_candidate sqrt m t.1 c 0 (u c) i
                / householder_divisor sqrt m t.1 c 0 (u c)
            else householder_candidate sqrt m t.1 c 0 (u c) i) i' = 0 :=
        Finset.sum_eq_zero (fun i' hi' => by
          rw [hz i' (by have := (Finset.mem_Ico.mp hi').1; omega) (Finset.mem_Ico.mp hi').2,
            zero_mul])
      rw [hdot, hz i hji hi]
      split_ifs <;> simp
    · -- the pivot column: the reflection cancels it below the pivot
      have hjc' : j = c := by omega
      subst hjc'
      have hcond : j < n ∧ j ≤ i ∧ i < m := ⟨hcn, le_of_lt hji, hi⟩
      rw [if_pos hcond]
      have hsum : ∑ i' in Finset.Ico j m,
          t.1 j i' * (fun i =>
            if j ≤ i ∧ i < m then
              householder_candidate sqrt m t.1 j 0 (u j) i
                / householder_divisor sqrt m t.1 j 0 (u j)
            else householder_candidate sqrt m t.1 j 0 (u j) i) i'
          = ∑ i' in Finset.Ico j m,
              t.1 j i' * (householder_candidate sqrt m t.1 j 0 (u j) i'
                / householder_divisor sqrt m t.1 j 0 (u j)) :=
        Finset.sum_congr rfl (fun i' hi' => by
          have h := Finset.mem_Ico.mp hi'
          simp only [h.1, h.2, and_self, if_true])
      rw [hsum]
      simp only [hcond.2.1, hcond.2.2, and_self, if_true]
      exact householder_column_zero sqrt hsq m t.1 j (u j) (by omega)
        (hdiv j (Nat.lt_succ_self j) t ht) i hji hi

end Factorize

/-! ## Linear independence of the columns -/

section Rank

variable {α : Type} [LinearOrderedField α]

/-- If the first `c + 1` columns vanish in every row from `c` on, they live in a space of
dimension `c` and the columns are linearly dependent. -/
theorem not_fullColumnRank_of_zero_rows (m n : Nat) (a : Matrix α) (c : Nat) (hcn : c < n)
    (hz : ∀ j i, j ≤ c → c ≤ i → i < m → a j i = 0) : ¬ FullColumnRank m n a := by
  intro hfull
  have hdep : ¬ LinearIndependent α (fun (j : Fin (c + 1)) (i : Fin c) => a j i) := by
    intro hli
    have := hli.fintype_card_le_finrank
    simp at this
  obtain ⟨g, hg, j0, hj0⟩ := Fintype.not_linearIndependent_iff.mp hdep
  have hcoef := hfull (fun j => if h : j < c + 1 then g ⟨j, h⟩ else 0) (by
    intro i hi
    have hsub : ∑ j in Finset.range n, (if h : j < c + 1 then g ⟨j, h⟩ else 0) * a j i
        = ∑ j in Finset.range (c + 1), (if h : j < c + 1 then g ⟨j, h⟩ else 0) * a j i := by
      symm
      refine Finset.sum_subset (Finset.range_subset.mpr hcn) (fun j _ hj => ?_)
      have : ¬ j < c + 1 := fun h => hj (Finset.mem_range.mpr h)
      simp [this]
    rw [hsub, Finset.sum_range]
    rcases Nat.lt_or_ge i c with hic | hic
    · have := congrFun hg ⟨i, hic⟩
      simpa [Finset.sum_apply] using this
    · refine Finset.sum_eq_zero (fun j _ => ?_)
      rw [hz j i (Nat.lt_succ_iff.mp j.2) hic hi, mul_zero])
  apply hj0
  have := hcoef j0 (lt_of_lt_of_le j0.2 hcn)
  simpa using this

theorem square_nonneg (x : α) : 0 ≤ square x := mul_self_nonneg x

theorem householder_candidate_pivot (sqrt : α → α) (m : Nat) (a : Matrix α) (k : Nat)
    (v_k : Vector α) (hk : k < 256) (hkm : k < m) :
    householder_candidate sqrt m a k 0 v_k k
      = a k k + sign (a k k) * sqrt (∑ i in Finset.Ico k m, square (a k i)) := by
  have hmod' : k % 256 = k := Nat.mod_eq_of_lt hk
  rw [householder_candidate_apply]
  simp [hmod', hkm]

theorem householder_candidate_below (sqrt : α → α) (m : Nat) (a : Matrix α) (k : Nat)
    (v_k : Vector α) (hk : k < 256) (i : Nat) (hki : k < i) (him : i < m) :
    householder_candidate sqrt m a k 0 v_k i = a k i := by
  have hmod' : k % 256 = k := Nat.mod_eq_of_lt hk
  rw [householder_candidate_apply]
  have : i ≠ k := by omega
  simp [hmod', this, le_of_lt hki, him]

/-- The square of the divisor is the sum of the squares of the candidate vector. -/
theorem householder_divisor_mul_self (sqrt : α → α) (hsq : ∀ x, 0 ≤ x → sqrt x * sqrt x = x)
    (m : Nat) (a : Matrix α) (k : Nat) (v_k : Vector α) (hk : k < 256) :
    householder_divisor sqrt m a k 0 v_k * householder_divisor sqrt m a k 0 v_k
      = ∑ i in Finset.Ico k m, square (householder_candidate sqrt m a k 0 v_k i) := by
  have hmod : (k + 0) % 256 = k := Nat.mod_eq_of_lt hk
  rw [householder_divisor_eq, hmod,
    hsq _ (Finset.sum_nonneg (fun i _ => square_nonneg _))]

/-- A zero divisor means that the sub-column `a[k][k..m)` is the zero vector. -/
theorem subcolumn_zero_of_divisor_zero (sqrt : α → α)
    (hsq : ∀ x, 0 ≤ x → sqrt x * sqrt x = x) (hnn : ∀ x, 0 ≤ sqrt x) (m : Nat)
    (a : Matrix α) (k : Nat) (v_k : Vector α) (hk : k < 256) (hkm : k < m)
    (hD : householder_divisor sqrt m a k 0 v_k = 0) (i : Nat) (hki : k ≤ i) (him : i < m) :
    a k i = 0 := by
  have hS := householder_divisor_mul_self sqrt hsq m a k v_k hk
  rw [hD, mul_zero] at hS
  have hcand : ∀ i ∈ Finset.Ico k m, householder_candidate sqrt m a k 0 v_k i = 0 := by
    intro i hi
    have := (Finset.sum_eq_zero_iff_of_nonneg (fun i _ => mul_self_nonneg _)).mp hS.symm i hi
    exact mul_self_eq_zero.mp this
  have hbelow : ∀ i, k < i → i < m → a k i = 0 := by
    intro i h1 h2
    rw [← householder_candidate_below sqrt m a k v_k hk i h1 h2]
    exact hcand i (Finset.mem_Ico.mpr ⟨le_of_lt h1, h2⟩)
  rcases Nat.eq_or_lt_of_le hki with h | h
  · subst h
    have hN : sqrt (∑ i in Finset.Ico k m, square (a k i))
          * sqrt (∑ i in Finset.Ico k m, square (a k i)) = a k k * a k k := by
      rw [hsq _ (Finset.sum_nonneg (fun i _ => square_nonneg _)),
        Finset.sum_eq_sum_Ico_succ_bot hkm]
      have : ∑ i in Finset.Ico (k + 1) m, square (a k i) = 0 :=
        Finset.sum_eq_zero (fun i hi => by
          rw [hbelow i (by have := (Finset.mem_Ico.mp hi).1; omega) (Finset.mem_Ico.mp hi).2]
          simp [square])
      rw [this, add_zero]
      rfl
    have h0 := hcand k (Finset.mem_Ico.mpr ⟨le_refl k, hkm⟩)
    rw [householder_candidate_pivot sqrt m a k v_k hk hkm] at h0
    have hN0 := hnn (∑ i in Finset.Ico k m, square (a k i))
    unfold sign at h0
    split_ifs at h0 with hneg
    · linarith
    · push_neg at hneg
      linarith
  · exact hbelow i h him

/-- The normalised Householder vector has unit length on the sub-column range. -/
theorem householder_unit (sqrt : α → α) (hsq : ∀ x, 0 ≤ x → sqrt x * sqrt x = x) (m : Nat)
    (a : Matrix α) (k : Nat) (v_k : Vector α) (hk : k < 256)
    (hD : householder_divisor sqrt m a k 0 v_k ≠ 0) :
    ∑ i in Finset.Ico k m,
      (householder_candidate sqrt m a k 0 v_k i / householder_divisor sqrt m a k 0 v_k)
        * (householder_candidate sqrt m a k 0 v_k i / householder_divisor sqrt m a k 0 v_k)
      = 1 := by
  have hS := householder_divisor_mul_self sqrt hsq m a k v_k hk
  have e : ∀ i ∈ Finset.Ico k m,
      (householder_candidate sqrt m a k 0 v_k i / householder_divisor sqrt m a k 0 v_k)
        * (householder_candidate sqrt m a k 0 v_k i / householder_divisor sqrt m a k 0 v_k)
      = square (householder_candidate sqrt m a k 0 v_k i)
        / (householder_divisor sqrt m a k 0 v_k * householder_divisor sqrt m a k 0 v_k) := by
    intro i _
    rw [square, div_mul_div_comm]
  rw [Finset.sum_congr rfl e, ← Finset.sum_div, ← hS]
  exact div_self (mul_ne_zero hD hD)

/-- Reflecting every column by a unit vector keeps the columns linearly independent. -/
theorem fullColumnRank_reflect_columns (m n : Nat) (a : Matrix α) (w : Vector α) (k : Nat)
    (hk : k < 256) (hw : ∑ i in Finset.Ico k m, w i * w i = 1)
    (hfull : FullColumnRank m n a) : FullColumnRank m n (reflect_columns m n a w k 0) := by
  have hmod : (k + 0) % 256 = k := Nat.mod_eq_of_lt hk
  intro c hc
  apply hfull c
  have hE : ∑ j in Finset.range n, c j * ∑ i' in Finset.Ico k m, a j i' * w i'
      = ∑ i' in Finset.Ico k m, (∑ j in Finset.range n, c j * a j i') * w i' := by
    simp only [Finset.mul_sum, Finset.sum_mul]
    rw [Finset.sum_comm]
    exact Finset.sum_congr rfl (fun i' _ => Finset.sum_congr rfl (fun j _ => by ring))
  have hy : ∀ i, i < m → k ≤ i →
      ∑ j in Finset.range n, c j * a j i
        = 2 * (∑ i' in Finset.Ico k m, (∑ j in Finset.range n, c j * a j i') * w i') * w i := by
    intro i hi hki
    have h := hc i hi
    have e : ∑ j in Finset.range n, c j * reflect_columns m n a w k 0 j i
        = ∑ j in Finset.range n, c j * a j i
          - 2 * (∑ j in Finset.range n, c j * ∑ i' in Finset.Ico k m, a j i' * w i') * w i := by
      rw [Finset.mul_sum, Finset.sum_mul, ← Finset.sum_sub_distrib]
      refine Finset.sum_congr rfl (fun j hj => ?_)
      rw [reflect_columns_apply, hmod, if_pos ⟨Finset.mem_range.mp hj, hki, hi⟩]
      ring
    rw [e, hE] at h
    linear_combination h
  have hE0 : ∑ i' in Finset.Ico k m, (∑ j in Finset.range n, c j * a j i') * w i' = 0 := by
    have h0 : ∑ i' in Finset.Ico k m, (∑ j in Finset.range n, c j * a j i') * w i'
        = ∑ i' in Finset.Ico k m,
            (2 * (∑ i' in Finset.Ico k m, (∑ j in Finset.range n, c j * a j i') * w i')
              * w i') * w i' :=
      Finset.sum_congr rfl (fun i' hi' => by
        rw [← hy i' (Finset.mem_Ico.mp hi').2 (Finset.mem_Ico.mp hi').1])
    have h1 : ∑ i' in Finset.Ico k m, (∑ j in Finset.range n, c j * a j i') * w i'
        = 2 * (∑ i' in Finset.Ico k m, (∑ j in Finset.range n, c j * a j i') * w i')
          * ∑ i' in Finset.Ico k m, w i' * w i' := by
      rw [Finset.mul_sum]
      exact h0.trans (Finset.sum_congr rfl (fun i' _ => by ring))
    rw [hw] at h1
    linarith
  intro i hi
  rcases Nat.lt_or_ge i k with hik | hki
  · have h := hc i hi
    have e : ∑ j in Finset.range n, c j * reflect_columns m n a w k 0 j i
        = ∑ j in Finset.range n, c j * a j i :=
      Finset.sum_congr rfl (fun j _ => by
        rw [reflect_columns_apply, hmod, if_neg (by omega)])
    rw [← e, h]
  · rw [hy i hi hki, hE0]
    ring

/-- On an input with linearly independent columns no normalisation of the factorization
divides by zero. -/
theorem noZeroDivisor_of_fullColumnRank (sqrt : α → α)
    (hsq : ∀ x, 0 ≤ x → sqrt x * sqrt x = x) (hnn : ∀ x, 0 ≤ sqrt x) (m n : Nat)
    (hnm : n ≤ m) (hm : m < 256) (a : Matrix α) (v u : Few (Vector α))
    (hfull : FullColumnRank m n a) : NoZeroDivisor sqrt m n a v u := by
  have key : ∀ c, c ≤ n →
      (∀ k, k < c → ∀ s, factorize_upto sqrt m n a v u k = some s →
        householder_divisor sqrt m s.1 k 0 (u k) ≠ 0) ∧
      (∀ s, factorize_upto sqrt m n a v u c = some s → FullColumnRank m n s.1) := by
    intro c
    induction c with
    | zero =>
      intro _
      refine ⟨fun k hk => absurd hk (Nat.not_lt_zero k), fun s hs => ?_⟩
      rw [factorize_upto_zero] at hs
      rw [← Option.some.inj hs]
      exact hfull
    | succ c ih =>
      intro hc
      have hcn : c < n := hc
      obtain ⟨hP, hQ⟩ := ih (le_of_lt hcn)
      obtain ⟨t, ht⟩ := factorize_upto_isSome sqrt m n hnm a v u c (le_of_lt hcn)
      have hDc : householder_divisor sqrt m t.1 c 0 (u c) ≠ 0 := by
        intro hD
        refine not_fullColumnRank_of_zero_rows m n t.1 c hcn ?_ (hQ t ht)
        intro j i hjc hci him
        rcases Nat.lt_or_ge j c with h | h
        · exact factorize_upto_lower_zero sqrt hsq m n hnm hm a v u c (le_of_lt hcn) hP t ht
            j i h (by omega) him
        · have hj : j = c := by omega
          subst hj
          exact subcolumn_zero_of_divisor_zero sqrt hsq hnn m t.1 j (u j) (by omega) (by omega)
            hD i hci him
      refine ⟨?_, ?_⟩
      · intro k hk s hs
        rcases Nat.lt_or_ge k c with h | h
        · exact hP k h s hs
        · have hkc : k = c := by omega
          subst hkc
          rw [ht] at hs
          rw [← Option.some.inj hs]
          exact hDc
      · intro s hs
        rw [factorize_upto_succ, ht, Option.some_bind,
          factorize_step_eq sqrt m n u c t hcn (by omega)] at hs
        rw [← Option.some.inj hs]
        have hmod : (c + 0) % 256 = c := Nat.mod_eq_of_lt (by omega)
        refine fullColumnRank_reflect_columns m n t.1 _ c (by omega) ?_ (hQ t ht)
        rw [← householder_unit sqrt hsq m t.1 c (u c) (by omega) hDc]
        refine Finset.sum_congr rfl (fun i hi => ?_)
        have h := Finset.mem_Ico.mp hi
        simp only [hmod, h.1, h.2, and_self, if_true]
  exact fun k hk s hs => (key (k + 1) hk).1 k (Nat.lt_succ_self k) s hs

end Rank

/-! ## Reduced QR assembly -/

section Decompose

/-- A doubly nested loop that assigns every entry of a block. -/
theorem forLoop_fill {α : Type} (n m : Nat) (f : Nat → Nat → α) (r : Matrix α) (p q : Nat) :
    forLoop 0 n (fun j r => forLoop 0 m (fun i r => setEntry r j i (f j i)) r) r p q
      = if p < n ∧ q < m then f p q else r p q := by
  have h : ∀ (j : Nat) (r : Matrix α),
      forLoop 0 m (fun i r => setEntry r j i (f j i)) r
        = Function.update r j (fun i => if 0 ≤ i ∧ i < m then f j i else r j i) :=
    fun j r => forLoop_setEntry 0 m j (fun i _ => f j i) r
  simp only [h]
  rw [forLoop_update 0 n (fun j col => fun i => if 0 ≤ i ∧ i < m then f j i else col i) r]
  by_cases hp : p < n <;> by_cases hq : q < m <;> simp [hp, hq]

/-- C3. Triangularity: in exact real arithmetic, for `n ≤ m` (sizes of type `U8`), an input
with linearly independent columns is one on which no normalisation divides by zero, and on
every input on which no normalisation divides by zero `decompose_qr_reduced` writes an `R`
with `r[j][i] = 0` for every column `j` and row `i` with `j < i < n`. -/
theorem decompose_qr_reduced_triangular (m n : Nat) (hnm : n ≤ m) (hm : m < 256)
    (a q r : Matrix ℝ) (v u : Few (Vector ℝ)) :
    (FullColumnRank m n a → NoZeroDivisor Real.sqrt m n a v u) ∧
    (NoZeroDivisor Real.sqrt m n a v u →
      ∃ r' q', decompose_qr_reduced Real.sqrt m n a q r v u = some (r', q') ∧
        ∀ j i, j < i → i < n → r' j i = 0) := by
  refine ⟨noZeroDivisor_of_fullColumnRank Real.sqrt (fun x hx => Real.mul_self_sqrt hx)
    Real.sqrt_nonneg m n hnm hm a v u, ?_⟩
  intro hdiv
  obtain ⟨s, hs⟩ := factorize_upto_isSome Real.sqrt m n hnm a v u n (le_refl n)
  unfold decompose_qr_reduced factorize_qr_householder
  rw [hs, Option.map_some']
  refine ⟨_, _, rfl, ?_⟩
  intro j i hji hin
  rw [forLoop_fill n n (fun j i => s.1 j i) r j i, if_pos ⟨by omega, hin⟩]
  exact factorize_upto_lower_zero Real.sqrt (fun x hx => Real.mul_self_sqrt hx) m n hnm hm
    a v u n (le_refl n) (fun k hk => hdiv k hk) s hs j i (by omega) hji (by omega)

/-- On the 2-by-2 identity matrix no normalisation divides by zero, and the `R` written by
`decompose_qr_reduced` is zero below the diagonal. -/
theorem decompose_qr_reduced_triangular_witness :
    ∃ r' q',
      decompose_qr_reduced Real.sqrt 2 2 (fun j i => if i = j then 1 else 0) (fun _ _ => 0)
          (fun _ _ => 7) (fun _ _ => 0) (fun _ _ => 0) = some (r', q') ∧
        ∀ j i, j < i → i < 2 → r' j i = 0 :=
  (decompose_qr_reduced_triangular 2 2 (by decide) (by decide)
    (fun j i => if i = j then 1 else 0) (fun _ _ => 0) (fun _ _ => 7) (fun _ _ => 0)
    (fun _ _ => 0)).2
    (by
      have h4 : Real.sqrt (2 * 2) = 2 := Real.sqrt_mul_self (by norm_num)
      have h22 : (1 : ℝ) + 1 = 2 := by norm_num
      have h10 : ¬ ((1 : ℝ) < 0) := by norm_num
      intro k hk s hs
      interval_cases k
      · simp [factorize_upto, forLoopM] at hs
        subst hs
        simp [householder_divisor, householder_candidate, forLoop, List.range', square, sign,
          h10, h22, h4]
      · simp [factorize_upto, forLoopM, factorize_step, get_householder_vector,
          householder_divisor, householder_candidate, forLoop, List.range', square, sign,
          reflect_columns, setEntry, h10, h22, h4] at hs
        subst hs
        simp [householder_divisor, householder_candidate, forLoop, List.range', square, sign,
          h10, h22, h4])

end Decompose

section DecomposeQ

/-- C1. Reconstruction fails on the 1-by-1 matrix `[1]`: `decompose_qr_reduced` writes
`R = [-1]` and, because `implicit_q_x` runs `k = n - k2` over `n .. 1` and never applies
reflector 0, leaves `Q = [1]`; the product `Q * R` is `[-1]`, not the input `[1]`. -/
theorem decompose_qr_reduced_1x1 (q r : Matrix ℝ) (v u : Few (Vector ℝ)) (c : Matrix ℝ) :
    decompose_qr_reduced Real.sqrt 1 1 (fun _ _ => 1) q r v u
        = some (setEntry r 0 0 (-1), some (setEntry q 0 0 1)) ∧
      mulMat 1 1 (setEntry q 0 0 1) (setEntry r 0 0 (-1)) c 0 0 = -1 ∧
      mulMat 1 1 (setEntry q 0 0 1) (setEntry r 0 0 (-1)) c 0 0
        ≠ (fun _ _ => (1 : ℝ)) 0 0 := by
  have h4 : Real.sqrt (2 * 2) = 2 := Real.sqrt_mul_self (by norm_num)
  have h22 : (1 : ℝ) + 1 = 2 := by norm_num
  have h10 : ¬ ((1 : ℝ) < 0) := by norm_num
  have hp : mulMat 1 1 (setEntry q 0 0 1) (setEntry r 0 0 (-1)) c 0 0 = -1 := by
    simp [mulMat, mulVec, forLoop, Vector.scale, setEntry]
  refine ⟨?_, hp, ?_⟩
  · simp [decompose_qr_reduced, factorize_qr_householder, factorize_upto, forLoopM,
      factorize_step, get_householder_vector, householder_divisor, householder_candidate,
      forLoop, square, sign, reflect_columns, setEntry, implicit_q_x, Few.get?, h22, h4, h10]
    norm_num
  · rw [hp]
    norm_num

variable {α : Type} [LinearOrderedField α]

/-- With bounds-checked reads, for every non-square shape `n < m` with `n ≥ 1`,
`decompose_qr_reduced` writes `R` and then faults: the first pass of `implicit_q_x` has
`k = n` and reads `v[n]`, one past the last reflector. -/
theorem decompose_qr_reduced_faults (sqrt : α → α) (m n : Nat) (hn : 0 < n) (hnm : n < m)
    (a q r : Matrix α) (v u : Few (Vector α)) :
    ∃ r', decompose_qr_reduced sqrt m n a q r v u = some (r', none) := by
  obtain ⟨s, hs⟩ := factorize_upto_isSome sqrt m n (le_of_lt hnm) a v u n (le_refl n)
  unfold decompose_qr_reduced factorize_qr_householder
  rw [hs, Option.map_some']
  refine ⟨forLoop 0 n (fun j r => forLoop 0 n (fun i r => setEntry r j i (s.1 j i)) r) r, ?_⟩
  simp only [Option.some.injEq, Prod.mk.injEq, true_and]
  refine forLoopM_first_none _ _ hn ?_
  have hx : ∀ x : Vector α, implicit_q_x m n x s.2 = none := by
    intro x
    unfold implicit_q_x
    refine forLoopM_first_none _ _ hn ?_
    have hd : forLoopM (n - 0) m
        (fun i dot => (Few.get? n s.2 (n - 0)).map (fun vk => dot + vk i * x i)) (0 : α)
        = none :=
      forLoopM_first_none _ _ (by omega) (by simp [Few.get?])
    simp only [hd, Option.none_bind]
  simp only [hx, Option.map_none']

/-- The spec's 3-by-2 scenario, columns `[3,4,0]` and `[0,0,5]`: the bounds-checked Q loop
faults. -/
theorem decompose_qr_reduced_faults_witness :
    ∃ r', decompose_qr_reduced Real.sqrt 3 2
        (fun j i => if j = 0 then (if i = 0 then 3 else if i = 1 then 4 else 0)
          else (if i = 2 then 5 else 0))
        (fun _ _ => 0) (fun _ _ => 0) (fun _ _ => 0) (fun _ _ => 0) = some (r', none) :=
  decompose_qr_reduced_faults Real.sqrt 3 2 (by decide) (by decide) _ _ _ _ _

end DecomposeQ

/-! ## Ranges of the Householder routines -/

section Ranges

variable {α : Type} [LinearOrderedField α]

/-- C18 as stated fails: with `m = 2`, `n = 1`, column `[1, 0]`, `v_k = [1, 0]`, `k = 1` and
offset `0`, a range that starts at the offset would give `1 - 2 * 1 * 1` at row 0, but
`reflect_columns` starts at `k + o = 1` and leaves row 0 as it is. -/
theorem reflect_columns_range_counterexample :
    reflect_columns 2 1 (fun _ i => if i = 0 then (1 : ℚ) else 0)
        (fun i => if i = 0 then (1 : ℚ) else 0) 1 0 0 0
      ≠ (fun _ i => if i = 0 then (1 : ℚ) else 0) 0 0
          - 2 * (∑ i in Finset.Ico 0 2,
              (fun _ i => if i = 0 then (1 : ℚ) else 0) 0 i
                * (fun i => if i = 0 then (1 : ℚ) else 0) i)
            * (fun i => if i = 0 then (1 : ℚ) else 0) 0 := by
  rw [reflect_columns_apply]
  norm_num [Finset.sum_Ico_succ_top]

/-- C18, amended. Range of `reflect_columns`: for `k + o ≤ 255`, every column `p < n` gets
`dot = Σ_{i=k+o}^{m-1} a[p][i] * v_k[i]` and `a[p][q]` is replaced by
`a[p][q] - 2 * dot * v_k[q]` for exactly the rows `q = k+o .. m-1`; every other entry is
unchanged. -/
theorem reflect_columns_range (m n : Nat) (a : Matrix α) (v_k : Vector α) (k o : Nat)
    (hko : k + o < 256) (p q : Nat) :
    reflect_columns m n a v_k k o p q
      = if p < n ∧ k + o ≤ q ∧ q < m then
          a p q - 2 * (∑ i in Finset.Ico (k + o) m, a p i * v_k i) * v_k q
        else a p q := by
  rw [reflect_columns_apply, Nat.mod_eq_of_lt hko]

/-- With `m = 2`, `n = 1`, `k = 1`, offset `0`, row 0 of the column `[1, 0]` is kept. -/
theorem reflect_columns_range_witness :
    reflect_columns 2 1 (fun _ i => if i = 0 then (1 : ℚ) else 0)
        (fun i => if i = 0 then (1 : ℚ) else 0) 1 0 0 0
      = if 0 < 1 ∧ 1 + 0 ≤ 0 ∧ 0 < 2 then
          (fun _ i => if i = 0 then (1 : ℚ) else 0) 0 0
            - 2 * (∑ i in Finset.Ico (1 + 0) 2,
                (fun _ i => if i = 0 then (1 : ℚ) else 0) 0 i
                  * (fun i => if i = 0 then (1 : ℚ) else 0) i)
              * (fun i => if i = 0 then (1 : ℚ) else 0) 0
        else (fun _ i => if i = 0 then (1 : ℚ) else 0) 0 0 :=
  reflect_columns_range 2 1 _ _ 1 0 (by decide) 0 0

/-- C20 as stated fails: on the 2-by-2 identity matrix with `k = 1`, offset `0` and a local
`v_k` that holds 7 everywhere, entry 0 of the returned vector is 7, not 0. -/
theorem get_householder_vector_outside_counterexample :
    ∃ v, get_householder_vector Real.sqrt 2 2 (fun j i => if i = j then (1 : ℝ) else 0) 1 0
        (fun _ => 7) = some v ∧ v 0 ≠ 0 := by
  refine ⟨_, get_householder_vector_eq Real.sqrt 2 2 _ 1 0 (fun _ => 7) (by decide)
    (by decide), ?_⟩
  have h1 : ¬ ((1 + 0) % 256 ≤ 0 ∧ 0 < 2) := by decide
  simp only [h1, if_false]
  rw [householder_candidate_apply]
  norm_num

/-- C20, amended. For `k < n` and `k + o < m` (sizes of type `U8`),
`get_householder_vector` returns a vector whose entries at the indices `i < k + o` are never
assigned: they are the indeterminate prior content of the local `v_k`. -/
theorem get_householder_vector_outside (sqrt : α → α) (m n : Nat) (a : Matrix α) (k o : Nat)
    (v_k : Vector α) (hk : k < n) (hko : k + o < m) (hm : m < 256) :
    ∃ v, get_householder_vector sqrt m n a k o v_k = some v ∧
      ∀ i, i < k + o → v i = v_k i := by
  refine ⟨_, get_householder_vector_eq sqrt m n a k o v_k hk hko, ?_⟩
  intro i hi
  have hmod : (k + o) % 256 = k + o := Nat.mod_eq_of_lt (by omega)
  have h1 : ¬ (k + o ≤ i ∧ i < m) := by omega
  have h2 : i ≠ k + o := by omega
  simp only [hmod, h1, if_false]
  rw [householder_candidate_apply]
  simp only [hmod, h1, h2, if_false]

/-- On the 2-by-2 identity matrix with `k = 1` and offset `0`, the entry 0 of the result is
the prior content of the local. -/
theorem get_householder_vector_outside_witness :
    ∃ v, get_householder_vector Real.sqrt 2 2 (fun j i => if i = j then (1 : ℝ) else 0) 1 0
        (fun _ => 7) = some v ∧ ∀ i, i < 1 + 0 → v i = (fun _ => (7 : ℝ)) i :=
  get_householder_vector_outside Real.sqrt 2 2 (fun j i => if i = j then (1 : ℝ) else 0) 1 0
    (fun _ => 7) (by decide) (by decide) (by decide)

/-- C12. `implicit_q_x` does not apply the reflectors `n-1 .. 0`: with `m = n = 1`, `x = [1]`
and `v[0] = [1]` the source's `k = n - k2` is 1, both inner loops are empty and `x` is returned
unchanged, while applying reflector 0 as the spec describes gives `[-1]`. -/
theorem implicit_q_x_order_1x1 :
    implicit_q_x 1 1 (fun _ => (1 : ℚ)) (fun _ _ => 1) = some (fun _ => 1) ∧
      implicit_q_x_spec 1 1 (fun _ => (1 : ℚ)) (fun _ _ => 1) 0 = -1 ∧
      (fun _ => (1 : ℚ)) 0 ≠ implicit_q_x_spec 1 1 (fun _ => (1 : ℚ)) (fun _ _ => 1) 0 := by
  have h : implicit_q_x_spec 1 1 (fun _ => (1 : ℚ)) (fun _ _ => 1) 0 = -1 := by
    simp [implicit_q_x_spec, forLoop]
    norm_num
  refine ⟨?_, h, ?_⟩
  · simp [implicit_q_x, forLoopM]
  · rw [h]
    norm_num

end Ranges

/-! ## The Householder vector at a general offset -/

section Offset

variable {α : Type} [LinearOrderedField α]

/-- The candidate vector built from column `k` at offset `o` is the one built at offset 0
from pivot index `k + o` of a matrix whose columns all equal column `k`. -/
theorem householder_candidate_shift (sqrt : α → α) (m : Nat) (a : Matrix α) (k o : Nat)
    (v_k : Vector α) :
    householder_candidate sqrt m a k o v_k
      = householder_candidate sqrt m (fun _ => a k) (k + o) 0 v_k := rfl

theorem householder_divisor_shift (sqrt : α → α) (m : Nat) (a : Matrix α) (k o : Nat)
    (v_k : Vector α) :
    householder_divisor sqrt m a k o v_k
      = householder_divisor sqrt m (fun _ => a k) (k + o) 0 v_k := rfl

/-- On a zero sub-column the divisor of the normalisation is zero. -/
theorem divisor_zero_of_subcolumn_zero (sqrt : α → α)
    (hsq : ∀ x, 0 ≤ x → sqrt x * sqrt x = x) (m : Nat) (a : Matrix α) (k : Nat)
    (v_k : Vector α) (hk : k < 256) (hkm : k < m)
    (hz : ∀ i, k ≤ i → i < m → a k i = 0) : householder_divisor sqrt m a k 0 v_k = 0 := by
  have hs0 : sqrt 0 = 0 := mul_self_eq_zero.mp (hsq 0 (le_refl 0))
  have hN : ∑ i in Finset.Ico k m, square (a k i) = 0 :=
    Finset.sum_eq_zero (fun i hi => by
      rw [hz i (Finset.mem_Ico.mp hi).1 (Finset.mem_Ico.mp hi).2]
      simp [square])
  have hcand : ∀ i ∈ Finset.Ico k m, householder_candidate sqrt m a k 0 v_k i = 0 := by
    intro i hi
    have h := Finset.mem_Ico.mp hi
    rcases Nat.eq_or_lt_of_le h.1 with e | e
    · subst e
      rw [householder_candidate_pivot sqrt m a k v_k hk hkm, hN, hs0,
        hz k (le_refl k) hkm]
      simp
    · rw [householder_candidate_below sqrt m a k v_k hk i e h.2, hz i h.1 h.2]
  have hS := householder_divisor_mul_self sqrt hsq m a k v_k hk
  rw [Finset.sum_eq_zero (fun i hi => by rw [hcand i hi]; simp [square])] at hS
  exact mul_self_eq_zero.mp hS

/-- C17. The divisor of the normalisation vanishes exactly in the degenerate case: in exact
real arithmetic, for `k + o < m` (sizes of type `U8`), `norm_v_k` is 0 when the sub-column
`a[k][k+o..m)` is the zero vector and strictly positive when the sub-column has a non-zero
entry. -/
theorem householder_divisor_zero_iff (m : Nat) (a : Matrix ℝ) (k o : Nat) (v_k : Vector ℝ)
    (hko : k + o < m) (hm : m < 256) :
    ((∀ i, k + o ≤ i → i < m → a k i = 0) →
      householder_divisor Real.sqrt m a k o v_k = 0) ∧
    ((∃ i, k + o ≤ i ∧ i < m ∧ a k i ≠ 0) →
      0 < householder_divisor Real.sqrt m a k o v_k) := by
  have hsq : ∀ x : ℝ, 0 ≤ x → Real.sqrt x * Real.sqrt x = x := fun x hx =>
    Real.mul_self_sqrt hx
  refine ⟨fun hz => ?_, fun hnz => ?_⟩
  · rw [householder_divisor_shift]
    exact divisor_zero_of_subcolumn_zero Real.sqrt hsq m (fun _ => a k) (k + o) v_k
      (by omega) hko hz
  · obtain ⟨i, hi1, hi2, hi3⟩ := hnz
    have hne : householder_divisor Real.sqrt m a k o v_k ≠ 0 := by
      intro hD
      rw [householder_divisor_shift] at hD
      exact hi3 (subcolumn_zero_of_divisor_zero Real.sqrt hsq Real.sqrt_nonneg m
        (fun _ => a k) (k + o) v_k (by omega) hko hD i hi1 hi2)
    have hge : 0 ≤ householder_divisor Real.sqrt m a k o v_k := by
      rw [householder_divisor_eq]
      exact Real.sqrt_nonneg _
    exact lt_of_le_of_ne hge (Ne.symm hne)

/-- For column `[0, 3]` of a 2-by-1 matrix, `k = 0` and offset `1`, the divisor is
positive. -/
theorem householder_divisor_zero_iff_witness :
    0 < householder_divisor Real.sqrt 2 (fun _ i => if i = 1 then (3 : ℝ) else 0) 0 1
      (fun _ => 0) :=
  (householder_divisor_zero_iff 2 (fun _ i => if i = 1 then (3 : ℝ) else 0) 0 1 (fun _ => 0)
    (by decide) (by decide)).2 ⟨1, by decide, by decide, by norm_num⟩

/-- C16. Householder vectors are unit-norm: in exact real arithmetic, for `k < n`,
`k + o < m` (sizes of type `U8`) and a sub-column `a[k][k+o..m)` with a non-zero entry,
`get_householder_vector` returns a vector `v` with `Σ_{i=k+o}^{m-1} v[i]² = 1`, hence
`|v[i]| ≤ 1` on that range. -/
theorem get_householder_vector_unit (m n : Nat) (a : Matrix ℝ) (k o : Nat) (v_k : Vector ℝ)
    (hk : k < n) (hko : k + o < m) (hm : m < 256)
    (hnz : ∃ i, k + o ≤ i ∧ i < m ∧ a k i ≠ 0) :
    ∃ v, get_householder_vector Real.sqrt m n a k o v_k = some v ∧
      ∑ i in Finset.Ico (k + o) m, v i ^ 2 = 1 ∧
      ∀ i, k + o ≤ i → i < m → |v i| ≤ 1 := by
  have hsq : ∀ x : ℝ, 0 ≤ x → Real.sqrt x * Real.sqrt x = x := fun x hx =>
    Real.mul_self_sqrt hx
  have hmod : (k + o) % 256 = k + o := Nat.mod_eq_of_lt (by omega)
  obtain ⟨i0, h1, h2, h3⟩ := hnz
  have hne : householder_divisor Real.sqrt m (fun _ => a k) (k + o) 0 v_k ≠ 0 := fun hD =>
    h3 (subcolumn_zero_of_divisor_zero Real.sqrt hsq Real.sqrt_nonneg m (fun _ => a k)
      (k + o) v_k (by omega) hko hD i0 h1 h2)
  have hunit := householder_unit Real.sqrt hsq m (fun _ => a k) (k + o) v_k (by omega) hne
  rw [← householder_candidate_shift, ← householder_divisor_shift] at hunit
  have hsum : ∑ i in Finset.Ico (k + o) m,
      (fun i =>
        if (k + o) % 256 ≤ i ∧ i < m then
          householder_candidate Real.sqrt m a k o v_k i
            / householder_divisor Real.sqrt m a k o v_k
        else householder_candidate Real.sqrt m a k o v_k i) i ^ 2 = 1 := by
    rw [← hunit]
    refine Finset.sum_congr rfl (fun i hi => ?_)
    have h := Finset.mem_Ico.mp hi
    simp only [hmod, h.1, h.2, and_self, if_true]
    ring
  refine ⟨_, get_householder_vector_eq Real.sqrt m n a k o v_k hk hko, hsum, ?_⟩
  intro i hi1 hi2
  rw [← sq_le_one_iff_abs_le_one, ← hsum]
  exact Finset.single_le_sum (f := fun i =>
      (fun i =>
        if (k + o) % 256 ≤ i ∧ i < m then
          householder_candidate Real.sqrt m a k o v_k i
            / householder_divisor Real.sqrt m a k o v_k
        else householder_candidate Real.sqrt m a k o v_k i) i ^ 2)
    (fun j _ => sq_nonneg _) (Finset.mem_Ico.mpr ⟨hi1, hi2⟩)

/-- For column `[0, 3]` of a 2-by-1 matrix, `k = 0` and offset `1`, the returned vector has
unit length on the range `[1, 2)`. -/
theorem get_householder_vector_unit_witness :
    ∃ v, get_householder_vector Real.sqrt 2 1 (fun _ i => if i = 1 then (3 : ℝ) else 0) 0 1
        (fun _ => 0) = some v ∧
      ∑ i in Finset.Ico (0 + 1) 2, v i ^ 2 = 1 ∧
      ∀ i, 0 + 1 ≤ i → i < 2 → |v i| ≤ 1 :=
  get_householder_vector_unit 2 1 (fun _ i => if i = 1 then (3 : ℝ) else 0) 0 1 (fun _ => 0)
    (by decide) (by decide) (by decide) ⟨1, by decide, by decide, by norm_num⟩

end Offset

/-! ## Implicit product with the transposed factor -/

section ImplicitQt

variable {α : Type} [LinearOrderedField α]

/-- One pass of `implicit_q_trans_b` with reflector `w` from row `k` on, in closed form. -/
theorem implicit_q_trans_b_pass (m k : Nat) (w b : Vector α) :
    forLoop k m
        (fun i x =>
          Function.update x i
            (x i - 2 * forLoop k m (fun i dot => dot + w i * b i) 0 * w i)) b
      = fun i =>
          if k ≤ i ∧ i < m then b i - 2 * (∑ i' in Finset.Ico k m, b i' * w i') * w i
          else b i := by
  rw [forLoop_sum, zero_add,
    forLoop_update k m (fun i x => x - 2 * (∑ i' in Finset.Ico k m, w i' * b i') * w i) b]
  have e : ∑ i' in Finset.Ico k m, w i' * b i' = ∑ i' in Finset.Ico k m, b i' * w i' :=
    Finset.sum_congr rfl (fun i' _ => mul_comm _ _)
  rw [e]

/-- The reflectors stored by the first `c` iterations are not changed by later ones. -/
theorem factorize_upto_reflector_stable (sqrt : α → α) (m n : Nat) (hnm : n ≤ m)
    (a : Matrix α) (v u : Few (Vector α)) (c d : Nat) (hd : c + d ≤ n)
    (s t : Matrix α × Few (Vector α)) (hs : factorize_upto sqrt m n a v u c = some s)
    (ht : factorize_upto sqrt m n a v u (c + d) = some t) (k : Nat) (hk : k < c) :
    t.2 k = s.2 k := by
  induction d generalizing t with
  | zero =>
    rw [Nat.add_zero, hs] at ht
    rw [← Option.some.inj ht]
  | succ d ih =>
    obtain ⟨r, hr⟩ := factorize_upto_isSome sqrt m n hnm a v u (c + d) (by omega)
    rw [← Nat.add_assoc, factorize_upto_succ, hr, Option.some_bind,
      factorize_step_eq sqrt m n u (c + d) r (by omega) (by omega)] at ht
    rw [← Option.some.inj ht]
    simp only
    rw [Function.update_noteq (by omega), ih (by omega) r hr]

/-- After `c` iterations of the factorization, every column is what the first `c` passes of
`implicit_q_trans_b` make of the original column, with the reflectors stored so far. -/
theorem factorize_upto_column (sqrt : α → α) (m n : Nat) (hnm : n ≤ m) (hm : m < 256)
    (a : Matrix α) (v u : Few (Vector α)) (c : Nat) (hc : c ≤ n)
    (s : Matrix α × Few (Vector α)) (hs : factorize_upto sqrt m n a v u c = some s)
    (w : Few (Vector α)) (hw : ∀ k, k < c → w k = s.2 k) (j : Nat) (hj : j < n) :
    forLoop 0 c
        (fun k b =>
          let dot := forLoop k m (fun i dot => dot + w k i * b i) 0
          forLoop k m (fun i b => Function.update b i (b i - 2 * dot * w k i)) b)
        (a j)
      = s.1 j := by
  induction c generalizing s with
  | zero =>
    rw [factorize_upto_zero] at hs
    rw [← Option.some.inj hs, forLoop_of_le _ _ (le_refl 0)]
  | succ c ih =>
    obtain ⟨t, ht⟩ := factorize_upto_isSome sqrt m n hnm a v u c (by omega)
    have hst := hs
    rw [factorize_upto_succ, ht, Option.some_bind,
      factorize_step_eq sqrt m n u c t (by omega) (by omega)] at hs
    have hmod : (c + 0) % 256 = c := Nat.mod_eq_of_lt (by omega)
    have hwc : w c = s.2 c := hw c (Nat.lt_succ_self c)
    have hprev : ∀ k, k < c → w k = t.2 k := by
      intro k hk
      rw [hw k (Nat.lt_succ_of_lt hk)]
      exact factorize_upto_reflector_stable sqrt m n hnm a v u c 1 (by omega) t s ht hst k hk
    rw [forLoop_succ _ _ (Nat.zero_le c), ih (by omega) t ht hprev]
    simp only
    rw [implicit_q_trans_b_pass, hwc, ← Option.some.inj hs]
    simp only [Function.update_same]
    funext i
    rw [reflect_columns_apply]
    simp only [hmod, hj, true_and]

/-- C13. `implicit_q_trans_b` agrees with the in-place factorization: for `n ≤ m` (sizes of
type `U8`), `factorize_qr_householder` returns a matrix `A'` and a reflector set `v`, and for
every column `j < n`, `implicit_q_trans_b` applied to the original column `A[j]` with `v` is
the column `A'[j]`. -/
theorem implicit_q_trans_b_factorize (sqrt : α → α) (m n : Nat) (hnm : n ≤ m) (hm : m < 256)
    (a : Matrix α) (v u : Few (Vector α)) (j : Nat) (hj : j < n) :
    ∃ s, factorize_qr_householder sqrt m n a v u = some s ∧
      implicit_q_trans_b m n (a j) s.2 = s.1 j := by
  obtain ⟨s, hs⟩ := factorize_upto_isSome sqrt m n hnm a v u n (le_refl n)
  exact ⟨s, hs, factorize_upto_column sqrt m n hnm hm a v u n (le_refl n) s hs s.2
    (fun _ _ => rfl) j hj⟩

/-- On the spec's 3-by-2 scenario, column 1 of the factorized matrix is what
`implicit_q_trans_b` makes of the original column 1. -/
theorem implicit_q_trans_b_factorize_witness :
    ∃ s, factorize_qr_householder Real.sqrt 3 2
        (fun j i => if j = 0 then (if i = 0 then 3 else if i = 1 then 4 else 0)
          else (if i = 2 then 5 else 0))
        (fun _ _ => 0) (fun _ _ => 0) = some s ∧
      implicit_q_trans_b 3 2
        ((fun j i => if j = 0 then (if i = 0 then (3 : ℝ) else if i = 1 then 4 else 0)
          else (if i = 2 then 5 else 0)) 1) s.2 = s.1 1 :=
  implicit_q_trans_b_factorize Real.sqrt 3 2 (by decide) (by decide) _ _ _ 1 (by decide)

end ImplicitQt

/-! ## Row-first construction -/

section InitializerList

variable {α : Type}

/-- The fold of the row-first constructor, started at counter `k0` on the rest of the list
`L` from position `k0` on. -/
theorem initializer_fold (m n : Nat) (L : List α) (hL : L.length = m * n) (l : List α)
    (k0 : Nat) (a : Matrix α) (hdrop : L.drop k0 = l) :
    ∃ a' k', l.foldlM
        (fun (s : Matrix α × Nat) x =>
          if s.2 % n < n ∧ s.2 / n < m then some (setEntry s.1 (s.2 % n) (s.2 / n) x, s.2 + 1)
          else none) (a, k0) = some (a', k') ∧
      ∀ r c, r < m → c < n →
        (if k0 ≤ r * n + c then L[r * n + c]? else some (a c r)) = some (a' c r) := by
  induction l generalizing k0 a with
  | nil =>
    refine ⟨a, k0, rfl, ?_⟩
    intro r c hr hc
    have hk0 : L.length ≤ k0 := List.drop_eq_nil_iff.mp hdrop
    have h1 : (r + 1) * n ≤ m * n := Nat.mul_le_mul_right n hr
    have h2 : (r + 1) * n = r * n + n := Nat.succ_mul r n
    rw [if_neg (by omega)]
  | cons x xs ih =>
    have hlt : k0 < L.length := by
      by_contra hge
      rw [List.drop_of_length_le (Nat.le_of_not_lt hge)] at hdrop
      exact List.noConfusion hdrop
    rw [List.drop_eq_getElem_cons hlt] at hdrop
    have hx : L[k0] = x := (List.cons.inj hdrop).1
    have hxs : L.drop (k0 + 1) = xs := (List.cons.inj hdrop).2
    have hn : 0 < n := by
      rcases Nat.eq_zero_or_pos n with h | h
      · subst h
        rw [Nat.mul_zero] at hL
        omega
      · exact h
    have hmod : k0 % n < n := Nat.mod_lt k0 hn
    have hdiv : k0 / n < m := by
      rw [Nat.div_lt_iff_lt_mul hn]
      omega
    obtain ⟨a', k', hfold, hent⟩ := ih (k0 + 1) (setEntry a (k0 % n) (k0 / n) x) hxs
    refine ⟨a', k', ?_, ?_⟩
    · rw [List.foldlM_cons]
      simp only [hmod, hdiv, and_self, if_true, Option.some_bind, Option.bind_eq_bind]
      exact hfold
    · intro r c hr hc
      have h := hent r c hr hc
      rw [setEntry_apply] at h
      by_cases hk : r * n + c = k0
      · have hc' : c = k0 % n := by rw [← hk, Nat.mul_comm, Nat.mul_add_mod, Nat.mod_eq_of_lt hc]
        have hr' : r = k0 / n := by
          rw [← hk, Nat.mul_comm, Nat.mul_add_div hn, Nat.div_eq_of_lt hc, Nat.add_zero]
        rw [if_neg (by omega), if_pos ⟨hc', hr'⟩] at h
        rw [if_pos (by omega), hk, ← h, ← hx]
        exact List.getElem?_eq_getElem hlt
      · have hne : ¬ (c = k0 % n ∧ r = k0 / n) := by
          rintro ⟨h1, h2⟩
          apply hk
          rw [h1, h2, Nat.mul_comm]
          exact Nat.div_add_mod k0 n
        rw [if_neg hne] at h
        by_cases hle : k0 ≤ r * n + c
        · rw [if_pos (by omega)] at h
          rw [if_pos hle]
          exact h
        · rw [if_neg (by omega)] at h
          rw [if_neg hle]
          exact h

/-- C15. Row-first construction reorders into the column-major store: for a list `l` of
exactly `m * n` scalars the constructor returns a matrix that holds `l[r * n + c]` at row `r`,
column `c` (stored as `a[c][r]`) for all `r < m`, `c < n`; `Matrix<2,2>` of four scalars
agrees with `matrix_2x2` and `Matrix<3,3>` of nine scalars with `matrix_3x3` of the same
scalars. -/
theorem Matrix_initializer_list_row_first (m n : Nat) (l : List α) (hl : l.length = m * n)
    (a : Matrix α) :
    (∃ a', Matrix_initializer_list m n l a = some a' ∧
      ∀ r c, r < m → c < n → l[r * n + c]? = some (a' c r)) ∧
    (∀ (x1 x2 x3 x4 : α) (o o' : Matrix α),
      ∃ M, Matrix_initializer_list 2 2 [x1, x2, x3, x4] o = some M ∧
        ∀ j i, j < 2 → i < 2 → M j i = matrix_2x2 x1 x2 x3 x4 o' j i) ∧
    (∀ (x1 x2 x3 x4 x5 x6 x7 x8 x9 : α) (o o' : Matrix α),
      ∃ M, Matrix_initializer_list 3 3 [x1, x2, x3, x4, x5, x6, x7, x8, x9] o = some M ∧
        ∀ j i, j < 3 → i < 3 → M j i = matrix_3x3 x1 x2 x3 x4 x5 x6 x7 x8 x9 o' j i) := by
  refine ⟨?_, ?_, ?_⟩
  · obtain ⟨a', k', hfold, hent⟩ := initializer_fold m n l hl l 0 a (List.drop_zero l)
    refine ⟨a', ?_, ?_⟩
    · unfold Matrix_initializer_list
      rw [hfold]
      rfl
    · intro r c hr hc
      have h := hent r c hr hc
      rw [if_pos (Nat.zero_le _)] at h
      exact h
  · intro x1 x2 x3 x4 o o'
    refine ⟨setEntry (setEntry (setEntry (setEntry o 0 0 x1) 1 0 x2) 0 1 x3) 1 1 x4,
      by simp [Matrix_initializer_list, List.foldlM], ?_⟩
    intro j i hj hi
    interval_cases j <;> interval_cases i <;>
      simp [setEntry, matrix_2x2, vector_2, Function.update]
  · intro x1 x2 x3 x4 x5 x6 x7 x8 x9 o o'
    refine ⟨setEntry (setEntry (setEntry (setEntry (setEntry (setEntry (setEntry (setEntry
      (setEntry o 0 0 x1) 1 0 x2) 2 0 x3) 0 1 x4) 1 1 x5) 2 1 x6) 0 2 x7) 1 2 x8) 2 2 x9,
      by simp [Matrix_initializer_list, List.foldlM], ?_⟩
    intro j i hj hi
    interval_cases j <;> interval_cases i <;>
      simp [setEntry, matrix_3x3, vector_3, Function.update]

/-- The list `10, 11, 12, 13, 14, 15` read as a 2-by-3 matrix has `l[1 * 3 + 2] = 15` at row 1
of column 2. -/
theorem Matrix_initializer_list_row_first_witness :
    ∃ a', Matrix_initializer_list 2 3 [10, 11, 12, 13, 14, 15] (fun _ _ => (0 : Nat))
        = some a' ∧
      ∀ r c, r < 2 → c < 3 → [10, 11, 12, 13, 14, 15][r * 3 + c]? = some (a' c r) :=
  (Matrix_initializer_list_row_first 2 3 [10, 11, 12, 13, 14, 15] rfl (fun _ _ => 0)).1

end InitializerList

/-! ## Bulk storage -/

section Bulk

variable {α : Type}

/-- A loop whose iterations do not fault is the loop of their results. -/
theorem forLoopM_eq_some {σ : Type} (lo hi : Nat) (body : Nat → σ → Option σ)
    (f : Nat → σ → σ) (s : σ)
    (h : ∀ j t, lo ≤ j → j < hi → body j t = some (f j t)) :
    forLoopM lo hi body s = some (forLoop lo hi f s) := by
  rcases Nat.le_total lo hi with hle | hle
  · induction hi, hle using Nat.le_induction with
    | base => rw [forLoopM_of_le _ _ (le_refl lo), forLoop_of_le _ _ (le_refl lo)]
    | succ c hc ih =>
      rw [forLoopM_succ _ _ hc, forLoop_succ _ _ hc,
        ih (fun j t h1 h2 => h j t h1 (Nat.lt_succ_of_lt h2)), Option.some_bind]
      exact h c _ hc (Nat.lt_succ_self c)
  · rw [forLoopM_of_le _ _ hle, forLoop_of_le _ _ hle]

/-- Two loops whose bodies agree on the index range are equal. -/
theorem forLoopM_congr {σ : Type} (lo hi : Nat) (body body' : Nat → σ → Option σ) (s : σ)
    (h : ∀ j t, lo ≤ j → j < hi → body j t = body' j t) :
    forLoopM lo hi body s = forLoopM lo hi body' s := by
  rcases Nat.le_total lo hi with hle | hle
  · induction hi, hle using Nat.le_induction with
    | base => rw [forLoopM_of_le _ _ (le_refl lo), forLoopM_of_le _ _ (le_refl lo)]
    | succ c hc ih =>
      rw [forLoopM_succ _ _ hc, forLoopM_succ _ _ hc,
        ih (fun j t h1 h2 => h j t h1 (Nat.lt_succ_of_lt h2))]
      cases forLoopM lo c body' s with
      | none => rfl
      | some t => exact h c t hc (Nat.lt_succ_self c)
  · rw [forLoopM_of_le _ _ hle, forLoopM_of_le _ _ hle]

/-- Within bounds `set_vector` overwrites the slice of entity `i` and nothing else. -/
theorem set_vector_eq (len n : Nat) (a : Few α) (i : Nat) (v : Vector α)
    (hb : i * n + n ≤ len) :
    set_vector len n a i v
      = some (fun p => if i * n ≤ p ∧ p < i * n + n then v (p - i * n) else a p) := by
  unfold set_vector
  rw [forLoopM_eq_some 0 n _ (fun j a => Function.update a (i * n + j) (v j)) a
    (fun j t _ hj => by rw [if_pos (by omega)])]
  congr 1
  refine forLoop_invariant
    (fun c (t : Few α) => t = fun p => if i * n ≤ p ∧ p < i * n + c then v (p - i * n) else a p)
    _ a (Nat.zero_le n) ?_ ?_
  · funext p
    rw [if_neg (by omega)]
  · intro c t _ _ ht
    subst ht
    funext p
    by_cases hp : p = i * n + c
    · subst hp
      rw [Function.update_same, if_pos (by omega)]
      congr 1
      omega
    · rw [Function.update_noteq hp]
      by_cases h1 : i * n ≤ p ∧ p < i * n + c
      · rw [if_pos h1, if_pos (by omega)]
      · rw [if_neg h1, if_neg (by omega)]

/-- Within bounds `get_vector` reads the slice of entity `i`. -/
theorem get_vector_eq (len n : Nat) (a : Few α) (i : Nat) (w : Vector α)
    (hb : i * n + n ≤ len) :
    get_vector len n a i w = some (fun j => if j < n then a (i * n + j) else w j) := by
  unfold get_vector
  rw [forLoopM_eq_some 0 n _ (fun j w => Function.update w j (a (i * n + j))) w
    (fun j t _ hj => by rw [if_pos (by omega)]),
    forLoop_update 0 n (fun j _ => a (i * n + j)) w]
  simp

/-- `get_vector` depends on the array through the slice of entity `i` only. -/
theorem get_vector_congr (len n : Nat) (a a' : Few α) (i : Nat) (w : Vector α)
    (h : ∀ j, j < n → a' (i * n + j) = a (i * n + j)) :
    get_vector len n a' i w = get_vector len n a i w := by
  unfold get_vector
  exact forLoopM_congr 0 n _ _ w (fun j t _ hj => by rw [h j hj])

/-- Reading back the slice that `set_vector` has just written. -/
theorem get_vector_set_vector_same (len n : Nat) (a : Few α) (i : Nat) (v w : Vector α)
    (hb : i * n + n ≤ len) :
    get_vector len n (fun p => if i * n ≤ p ∧ p < i * n + n then v (p - i * n) else a p) i w
      = some (fun j => if j < n then v j else w j) := by
  rw [get_vector_eq len n _ i w hb]
  congr 1
  funext j
  by_cases hj : j < n
  · rw [if_pos hj, if_pos hj, if_pos (by omega), Nat.add_sub_cancel_left]
  · rw [if_neg hj, if_neg hj]

/-- Reading the slice of another entity after `set_vector`. -/
theorem get_vector_set_vector_other (len n : Nat) (a : Few α) (i : Nat) (v w : Vector α)
    (i' : Nat) (hi' : i' ≠ i) :
    get_vector len n (fun p => if i * n ≤ p ∧ p < i * n + n then v (p - i * n) else a p) i' w
      = get_vector len n a i' w := by
  refine get_vector_congr len n a _ i' w (fun j hj => ?_)
  have hout : ¬ (i * n ≤ i' * n + j ∧ i' * n + j < i * n + n) := by
    rcases Nat.lt_or_gt_of_ne hi' with h | h
    · have h1 : (i' + 1) * n ≤ i * n := Nat.mul_le_mul_right n h
      have h2 : (i' + 1) * n = i' * n + n := Nat.succ_mul i' n
      omega
    · have h1 : (i + 1) * n ≤ i' * n := Nat.mul_le_mul_right n h
      have h2 : (i + 1) * n = i * n + n := Nat.succ_mul i n
      omega
  simp only [hout, if_false]

/-- C14. Bulk symmetric storage is per entity with stride `symm_dofs(d)`: for `d` in 1, 2, 3,
an entity `i` whose slice lies inside the array and a symmetric `S`, `set_symm` returns an
array that differs from the old one only inside the slice of `i`; on it `get_symm` at `i`
returns `S` (entry for entry), and `get_symm` at any other entity returns what it returned
before. -/
theorem set_symm_get_symm (d : Nat) (hd : d = 1 ∨ d = 2 ∨ d = 3) (len : Nat) (a : Few α)
    (i : Nat) (hi : i * symm_dofs d + symm_dofs d ≤ len) (S : Matrix α)
    (hS : ∀ r c, r < d → c < d → S r c = S c r) (v w : Vector α) (o : Matrix α) :
    ∃ a', set_symm len d a i S v = some a' ∧
      (∀ p, ¬ (i * symm_dofs d ≤ p ∧ p < i * symm_dofs d + symm_dofs d) → a' p = a p) ∧
      (∃ S', get_symm len d a' i w o = some S' ∧ ∀ r c, r < d → c < d → S' r c = S r c) ∧
      (∀ i', i' ≠ i → get_symm len d a' i' w o = get_symm len d a i' w o) := by
  have h1 : symm_dofs 1 = 1 := rfl
  have h2 : symm_dofs 2 = 3 := rfl
  have h3 : symm_dofs 3 = 6 := rfl
  rcases hd with rfl | rfl | rfl
  · rw [h1] at hi ⊢
    refine ⟨_, set_vector_eq len 1 a i (symm2vector_1 S) hi, ?_, ?_, ?_⟩
    · intro p hp
      simp only [hp, if_false]
    · refine ⟨vector2symm_1 (fun j => if j < 1 then symm2vector_1 S j else w j) o, ?_, ?_⟩
      · simp only [get_symm, h1, get_vector_set_vector_same len 1 a i _ w hi,
          Option.map_some']
      · intro r c hr hc
        interval_cases r
        interval_cases c
        simp [vector2symm_1, matrix_1x1, setEntry, symm2vector_1, vector_1]
    · intro i' hi'
      simp only [get_symm, h1, get_vector_set_vector_other len 1 a i _ w i' hi']
  · rw [h2] at hi ⊢
    refine ⟨_, set_vector_eq len 3 a i (symm2vector_2 S v) hi, ?_, ?_, ?_⟩
    · intro p hp
      simp only [hp, if_false]
    · refine ⟨vector2symm_2 (fun j => if j < 3 then symm2vector_2 S v j else w j) o, ?_, ?_⟩
      · simp only [get_symm, h2, get_vector_set_vector_same len 3 a i _ w hi,
          Option.map_some']
      · have h01 := hS 0 1 (by decide) (by decide)
        intro r c hr hc
        interval_cases r <;> interval_cases c <;>
          simp [vector2symm_2, symm2vector_2, setEntry, Function.update, h01]
    · intro i' hi'
      simp only [get_symm, h2, get_vector_set_vector_other len 3 a i _ w i' hi']
  · rw [h3] at hi ⊢
    refine ⟨_, set_vector_eq len 6 a i (symm2vector_3 S v) hi, ?_, ?_, ?_⟩
    · intro p hp
      simp only [hp, if_false]
    · refine ⟨vector2symm_3 (fun j => if j < 6 then symm2vector_3 S v j else w j) o, ?_, ?_⟩
      · simp only [get_symm, h3, get_vector_set_vector_same len 6 a i _ w hi,
          Option.map_some']
      · have h01 := hS 0 1 (by decide) (by decide)
        have h02 := hS 0 2 (by decide) (by decide)
        have h12 := hS 1 2 (by decide) (by decide)
        intro r c hr hc
        interval_cases r <;> interval_cases c <;>
          simp [vector2symm_3, symm2vector_3, setEntry, Function.update, h01, h02, h12]
    · intro i' hi'
      simp only [get_symm, h3, get_vector_set_vector_other len 6 a i _ w i' hi']

/-- In an array of 12 cells, the symmetric 3-by-3 matrix with entry `r + c` is stored at
entity 1 and read back; the cells of entity 0 are untouched. -/
theorem set_symm_get_symm_witness :
    ∃ a', set_symm 12 3 (fun _ => (0 : Nat)) 1 (fun j i => j + i) (fun _ => 7) = some a' ∧
      (∀ p, ¬ (1 * symm_dofs 3 ≤ p ∧ p < 1 * symm_dofs 3 + symm_dofs 3) →
        a' p = (fun _ => (0 : Nat)) p) ∧
      (∃ S', get_symm 12 3 a' 1 (fun _ => 8) (fun _ _ => 9) = some S' ∧
        ∀ r c, r < 3 → c < 3 → S' r c = (fun j i => j + i) r c) ∧
      (∀ i', i' ≠ 1 →
        get_symm 12 3 a' i' (fun _ => 8) (fun _ _ => 9)
          = get_symm 12 3 (fun _ => (0 : Nat)) i' (fun _ => 8) (fun _ _ => 9)) :=
  set_symm_get_symm 3 (Or.inr (Or.inr rfl)) 12 (fun _ => 0) 1 (by decide) (fun j i => j + i)
    (fun r c _ _ => Nat.add_comm r c) (fun _ => 7) (fun _ => 8) (fun _ _ => 9)

end Bulk

/-! ## The pivot entry -/

section Pivot

variable {α : Type} [LinearOrderedField α]

/-- The algebra of the pivot: with `N² = x₀² + T`, `s² = 1` and `D² = (x₀ + sN)² + T ≠ 0`, the
reflection sends the pivot entry `x₀` to `-(sN)`. -/
theorem householder_pivot_cancel (x0 T N D s : α) (hN : N * N = x0 * x0 + T) (hs : s * s = 1)
    (hD : D * D = (x0 + s * N) * (x0 + s * N) + T) (hD0 : D ≠ 0) :
    x0 - 2 * ((x0 * (x0 + s * N) + T) / D) * ((x0 + s * N) / D) = -(s * N) := by
  have h2 : x0 * (x0 + s * N) + T = D * D / 2 := by
    linear_combination (-(1 : α) / 2) * hD - (N * N / 2) * hs - (1 / 2) * hN
  have h3 : 2 * ((x0 * (x0 + s * N) + T) / D) * ((x0 + s * N) / D) = x0 + s * N := by
    rw [h2]
    field_simp
    ring
  rw [h3]
  ring

/-- After the reflection built from column `k`, the pivot entry of that column is
`-(sign(a[k][k]) * norm_x)`, provided the divisor of the normalisation is not zero. -/
theorem householder_pivot_value (sqrt : α → α) (hsq : ∀ x, 0 ≤ x → sqrt x * sqrt x = x)
    (m : Nat) (a : Matrix α) (k : Nat) (v_k : Vector α) (hk : k < 256) (hkm : k < m)
    (hD : householder_divisor sqrt m a k 0 v_k ≠ 0) :
    a k k - 2 * (∑ i' in Finset.Ico k m,
        a k i' * (householder_candidate sqrt m a k 0 v_k i'
          / householder_divisor sqrt m a k 0 v_k))
      * (householder_candidate sqrt m a k 0 v_k k / householder_divisor sqrt m a k 0 v_k)
      = -(sign (a k k) * sqrt (∑ i in Finset.Ico k m, square (a k i))) := by
  have hc0 := householder_candidate_pivot sqrt m a k v_k hk hkm
  have hc := householder_candidate_below sqrt m a k v_k hk
  have hN : sqrt (∑ i in Finset.Ico k m, square (a k i))
        * sqrt (∑ i in Finset.Ico k m, square (a k i))
      = a k k * a k k + ∑ i' in Finset.Ico (k + 1) m, square (a k i') := by
    rw [hsq _ (Finset.sum_nonneg (fun i _ => square_nonneg _)),
      Finset.sum_eq_sum_Ico_succ_bot hkm]
    rfl
  have htail : ∑ i' in Finset.Ico (k + 1) m,
      square (householder_candidate sqrt m a k 0 v_k i')
        = ∑ i' in Finset.Ico (k + 1) m, square (a k i') :=
    Finset.sum_congr rfl (fun i' hi' => by
      rw [hc i' (by have := (Finset.mem_Ico.mp hi').1; omega) (Finset.mem_Ico.mp hi').2])
  have hDD : householder_divisor sqrt m a k 0 v_k * householder_divisor sqrt m a k 0 v_k
      = (a k k + sign (a k k) * sqrt (∑ i in Finset.Ico k m, square (a k i)))
          * (a k k + sign (a k k) * sqrt (∑ i in Finset.Ico k m, square (a k i)))
        + ∑ i' in Finset.Ico (k + 1) m, square (a k i') := by
    rw [householder_divisor_mul_self sqrt hsq m a k v_k hk,
      Finset.sum_eq_sum_Ico_succ_bot hkm, hc0, htail]
    rfl
  have hdot : ∑ i' in Finset.Ico k m,
      a k i' * (householder_candidate sqrt m a k 0 v_k i'
        / householder_divisor sqrt m a k 0 v_k)
      = (a k k * (a k k + sign (a k k) * sqrt (∑ i in Finset.Ico k m, square (a k i)))
          + ∑ i' in Finset.Ico (k + 1) m, square (a k i'))
        / householder_divisor sqrt m a k 0 v_k := by
    have ht : ∑ i' in Finset.Ico (k + 1) m,
        a k i' * (householder_candidate sqrt m a k 0 v_k i'
          / householder_divisor sqrt m a k 0 v_k)
        = (∑ i' in Finset.Ico (k + 1) m, square (a k i'))
          / householder_divisor sqrt m a k 0 v_k := by
      rw [Finset.sum_div]
      refine Finset.sum_congr rfl (fun i' hi' => ?_)
      rw [hc i' (by have := (Finset.mem_Ico.mp hi').1; omega) (Finset.mem_Ico.mp hi').2,
        square, mul_div_assoc]
    rw [Finset.sum_eq_sum_Ico_succ_bot hkm, hc0, ht]
    ring
  rw [hdot, hc0]
  exact householder_pivot_cancel _ _ _ _ _ hN (sign_mul_self _) hDD hD

/-- The matrix entries after one iteration of the factorization, in closed form. -/
theorem factorize_step_entry (sqrt : α → α) (m n : Nat) (hm : m < 256) (u : Few (Vector α))
    (k : Nat) (t s : Matrix α × Few (Vector α)) (hk : k < n) (hkm : k < m)
    (hs : factorize_step sqrt m n u k t = some s) (j i : Nat) :
    s.1 j i
      = if j < n ∧ k ≤ i ∧ i < m then
          t.1 j i - 2 * (∑ i' in Finset.Ico k m,
              t.1 j i' * (householder_candidate sqrt m t.1 k 0 (u k) i'
                / householder_divisor sqrt m t.1 k 0 (u k)))
            * (householder_candidate sqrt m t.1 k 0 (u k) i
                / householder_divisor sqrt m t.1 k 0 (u k))
        else t.1 j i := by
  have hmod : (k + 0) % 256 = k := Nat.mod_eq_of_lt (by omega)
  rw [factorize_step_eq sqrt m n u k t hk hkm] at hs
  rw [← Option.some.inj hs]
  simp only
  rw [reflect_columns_apply, hmod]
  by_cases hc : j < n ∧ k ≤ i ∧ i < m
  · rw [if_pos hc, if_pos hc]
    simp only [hc.2.1, hc.2.2, and_self, if_true]
    congr 2
    refine congrArg _ (Finset.sum_congr rfl (fun i' hi' => ?_))
    have h := Finset.mem_Ico.mp hi'
    simp only [h.1, h.2, and_self, if_true]
  · rw [if_neg hc, if_neg hc]

end Pivot

/-! ## The concrete scenario and the output `R` -/

section Scenario

/-- C11. Concrete factorization: in exact real arithmetic, on the 3-by-2 matrix with columns
`[3, 4, 0]` and `[0, 0, 5]`, `factorize_qr_householder` returns a matrix whose upper 2-by-2
block is the `R` written by `decompose_qr_reduced`, with `R[0][0]` and `R[1][1]` in
`{5, -5}` (both are `-5`) and both off-diagonal entries 0. -/
theorem decompose_qr_reduced_3x2 (q r : Matrix ℝ) (v u : Few (Vector ℝ)) :
    ∃ s r' q', factorize_qr_householder Real.sqrt 3 2 scenario_3x2 v u = some s ∧
      decompose_qr_reduced Real.sqrt 3 2 scenario_3x2 q r v u = some (r', q') ∧
      (∀ j i, j < 2 → i < 2 → r' j i = s.1 j i) ∧
      (r' 0 0 = 5 ∨ r' 0 0 = -5) ∧ (r' 1 1 = 5 ∨ r' 1 1 = -5) ∧
      r' 1 0 = 0 ∧ r' 0 1 = 0 ∧ r' 0 0 = -5 ∧ r' 1 1 = -5 := by
  have hsq : ∀ x : ℝ, 0 ≤ x → Real.sqrt x * Real.sqrt x = x := fun x hx =>
    Real.mul_self_sqrt hx
  have h25 : Real.sqrt (5 * 5) = 5 := Real.sqrt_mul_self (by norm_num)
  have h012 : Finset.Ico 0 3 = {0, 1, 2} := by decide
  have h12 : Finset.Ico 1 3 = {1, 2} := by decide
  have hfull : FullColumnRank 3 2 (scenario_3x2 : Matrix ℝ) := by
    intro c hc j hj
    have h0 := hc 0 (by decide)
    have h2 := hc 2 (by decide)
    simp [Finset.sum_range_succ, scenario_3x2] at h0 h2
    interval_cases j
    · exact h0
    · exact h2
  have hdiv := noZeroDivisor_of_fullColumnRank Real.sqrt hsq Real.sqrt_nonneg 3 2
    (by decide) (by decide) scenario_3x2 v u hfull
  obtain ⟨s1, hs1⟩ := factorize_upto_isSome Real.sqrt 3 2 (by decide) scenario_3x2 v u 1
    (by decide)
  obtain ⟨s2, hs2⟩ := factorize_upto_isSome Real.sqrt 3 2 (by decide) scenario_3x2 v u 2
    (by decide)
  have hstep1 : factorize_step Real.sqrt 3 2 u 0 (scenario_3x2, v) = some s1 := by
    have h := hs1
    rw [factorize_upto_succ, factorize_upto_zero, Option.some_bind] at h
    exact h
  have hstep2 : factorize_step Real.sqrt 3 2 u 1 s1 = some s2 := by
    have h := hs2
    rw [factorize_upto_succ, hs1, Option.some_bind] at h
    exact h
  have hD0 := hdiv 0 (by decide) _ (factorize_upto_zero Real.sqrt 3 2 scenario_3x2 v u)
  have hD1 := hdiv 1 (by decide) s1 hs1
  -- the matrix after the first iteration
  have hB00 : s1.1 0 0 = -5 := by
    rw [factorize_step_entry Real.sqrt 3 2 (by decide) u 0 _ s1 (by decide) (by decide)
      hstep1 0 0, if_pos ⟨by decide, le_refl 0, by decide⟩,
      householder_pivot_value Real.sqrt hsq 3 scenario_3x2 0 (u 0) (by decide) (by decide) hD0]
    have hs : ∑ i in Finset.Ico 0 3, square ((scenario_3x2 : Matrix ℝ) 0 i) = 5 * 5 := by
      rw [h012, Finset.sum_insert (by decide), Finset.sum_pair (by decide)]
      simp [scenario_3x2, square]
      norm_num
    have hsg : sign ((scenario_3x2 : Matrix ℝ) 0 0) = 1 := by
      simp [sign, scenario_3x2]
    rw [hs, h25, hsg]
    norm_num
  have hB1 : ∀ i, s1.1 1 i = (scenario_3x2 : Matrix ℝ) 1 i := by
    intro i
    rw [factorize_step_entry Real.sqrt 3 2 (by decide) u 0 _ s1 (by decide) (by decide)
      hstep1 1 i]
    have hdot : ∑ i' in Finset.Ico 0 3,
        (scenario_3x2 : Matrix ℝ) 1 i'
          * (householder_candidate Real.sqrt 3 scenario_3x2 0 0 (u 0) i'
            / householder_divisor Real.sqrt 3 scenario_3x2 0 0 (u 0)) = 0 := by
      have hc2 := householder_candidate_below Real.sqrt 3 (scenario_3x2 : Matrix ℝ) 0 (u 0)
        (by decide) 2 (by decide) (by decide)
      rw [h012, Finset.sum_insert (by decide), Finset.sum_pair (by decide), hc2]
      simp [scenario_3x2]
    simp only [hdot, mul_zero, zero_mul, sub_zero, ite_self]
  have hC11 : s2.1 1 1 = -5 := by
    rw [factorize_step_entry Real.sqrt 3 2 (by decide) u 1 s1 s2 (by decide) (by decide)
      hstep2 1 1, if_pos ⟨by decide, le_refl 1, by decide⟩,
      householder_pivot_value Real.sqrt hsq 3 s1.1 1 (u 1) (by decide) (by decide) hD1]
    have hs : ∑ i in Finset.Ico 1 3, square (s1.1 1 i) = 5 * 5 := by
      rw [h12, Finset.sum_pair (by decide)]
      simp [hB1, scenario_3x2, square]
    have hsg : sign (s1.1 1 1) = 1 := by
      simp [sign, hB1, scenario_3x2]
    rw [hs, h25, hsg]
    norm_num
  have hC00 : s2.1 0 0 = -5 := by
    rw [factorize_step_entry Real.sqrt 3 2 (by decide) u 1 s1 s2 (by decide) (by decide)
      hstep2 0 0, if_neg (by decide), hB00]
  have hC10 : s2.1 1 0 = 0 := by
    rw [factorize_step_entry Real.sqrt 3 2 (by decide) u 1 s1 s2 (by decide) (by decide)
      hstep2 1 0, if_neg (by decide), hB1]
    simp [scenario_3x2]
  have hC01 : s2.1 0 1 = 0 :=
    factorize_upto_lower_zero Real.sqrt hsq 3 2 (by decide) (by decide) scenario_3x2 v u 2
      (le_refl 2) (fun k hk => hdiv k hk) s2 hs2 0 1 (by decide) (by decide) (by decide)
  have hfac : factorize_qr_householder Real.sqrt 3 2 scenario_3x2 v u = some s2 := hs2
  have hR : ∀ j i, j < 2 → i < 2 →
      forLoop 0 2 (fun j r => forLoop 0 2 (fun i r => setEntry r j i (s2.1 j i)) r) r j i
        = s2.1 j i := by
    intro j i hj hi
    rw [forLoop_fill 2 2 (fun j i => s2.1 j i) r j i, if_pos ⟨hj, hi⟩]
  have hdec : ∃ q', decompose_qr_reduced Real.sqrt 3 2 scenario_3x2 q r v u
      = some (forLoop 0 2 (fun j r => forLoop 0 2 (fun i r => setEntry r j i (s2.1 j i)) r) r,
          q') := by
    unfold decompose_qr_reduced
    rw [hfac, Option.map_some']
    exact ⟨_, rfl⟩
  obtain ⟨q', hq'⟩ := hdec
  refine ⟨s2, _, q', hfac, hq', hR, ?_, ?_, ?_, ?_, ?_, ?_⟩
  · right
    rw [hR 0 0 (by decide) (by decide), hC00]
  · right
    rw [hR 1 1 (by decide) (by decide), hC11]
  · rw [hR 1 0 (by decide) (by decide), hC10]
  · rw [hR 0 1 (by decide) (by decide), hC01]
  · rw [hR 0 0 (by decide) (by decide), hC00]
  · rw [hR 1 1 (by decide) (by decide), hC11]

end Scenario

section OutputR

variable {α : Type} [LinearOrderedField α]

/-- C19 as stated fails: on the 2-by-2 identity matrix with an output `r` that holds 7
everywhere before the call, the entry `r[0][1]` below the diagonal does not hold 7 after the
call. -/
theorem decompose_qr_reduced_frame_counterexample :
    ∃ r' q', decompose_qr_reduced Real.sqrt 2 2 (fun j i => if i = j then (1 : ℝ) else 0)
        (fun _ _ => 0) (fun _ _ => 7) (fun _ _ => 0) (fun _ _ => 0) = some (r', q') ∧
      r' 0 1 ≠ (fun _ _ => (7 : ℝ)) 0 1 := by
  have hsq : ∀ x : ℝ, 0 ≤ x → Real.sqrt x * Real.sqrt x = x := fun x hx =>
    Real.mul_self_sqrt hx
  have hfull : FullColumnRank 2 2 (fun j i => if i = j then (1 : ℝ) else 0) := by
    intro c hc j hj
    have h0 := hc 0 (by decide)
    have h1 := hc 1 (by decide)
    simp [Finset.sum_range_succ] at h0 h1
    interval_cases j
    · exact h0
    · exact h1
  have hdiv := noZeroDivisor_of_fullColumnRank Real.sqrt hsq Real.sqrt_nonneg 2 2
    (by decide) (by decide) _ (fun _ _ => 0) (fun _ _ => 0) hfull
  obtain ⟨s, hs⟩ := factorize_upto_isSome Real.sqrt 2 2 (by decide)
    (fun j i => if i = j then (1 : ℝ) else 0) (fun _ _ => 0) (fun _ _ => 0) 2 (by decide)
  have hz : s.1 0 1 = 0 :=
    factorize_upto_lower_zero Real.sqrt hsq 2 2 (by decide) (by decide) _ _ _ 2 (le_refl 2)
      (fun k hk => hdiv k hk) s hs 0 1 (by decide) (by decide) (by decide)
  have hdec : ∃ q', decompose_qr_reduced Real.sqrt 2 2
      (fun j i => if i = j then (1 : ℝ) else 0) (fun _ _ => 0) (fun _ _ => 7) (fun _ _ => 0)
      (fun _ _ => 0)
      = some (forLoop 0 2 (fun j r => forLoop 0 2 (fun i r => setEntry r j i (s.1 j i)) r)
          (fun _ _ => 7), q') := by
    unfold decompose_qr_reduced factorize_qr_householder
    rw [hs, Option.map_some']
    exact ⟨_, rfl⟩
  obtain ⟨q', hq'⟩ := hdec
  refine ⟨_, q', hq', ?_⟩
  rw [forLoop_fill 2 2 (fun j i => s.1 j i) _ 0 1, if_pos ⟨by decide, by decide⟩, hz]
  norm_num

/-- C19, amended. `decompose_qr_reduced` assigns every entry of the `n`-by-`n` output `R`,
the ones below the diagonal included: for `n ≤ m`, every `A` and every prior content of `R`,
each `r[j][i]` with `j, i < n` holds after the call the value `a[j][i]` left by
`factorize_qr_householder`, and the cells outside that block keep their prior value. -/
theorem decompose_qr_reduced_writes_r (sqrt : α → α) (m n : Nat) (hnm : n ≤ m)
    (a q r : Matrix α) (v u : Few (Vector α)) :
    ∃ s r' q', factorize_qr_householder sqrt m n a v u = some s ∧
      decompose_qr_reduced sqrt m n a q r v u = some (r', q') ∧
      (∀ j i, j < n → i < n → r' j i = s.1 j i) ∧
      (∀ j i, ¬ (j < n ∧ i < n) → r' j i = r j i) := by
  obtain ⟨s, hs⟩ := factorize_upto_isSome sqrt m n hnm a v u n (le_refl n)
  have hdec : ∃ q', decompose_qr_reduced sqrt m n a q r v u
      = some (forLoop 0 n (fun j r => forLoop 0 n (fun i r => setEntry r j i (s.1 j i)) r) r,
          q') := by
    unfold decompose_qr_reduced factorize_qr_householder
    rw [hs, Option.map_some']
    exact ⟨_, rfl⟩
  obtain ⟨q', hq'⟩ := hdec
  refine ⟨s, _, q', hs, hq', ?_, ?_⟩
  · intro j i hj hi
    rw [forLoop_fill n n (fun j i => s.1 j i) r j i, if_pos ⟨hj, hi⟩]
  · intro j i hji
    rw [forLoop_fill n n (fun j i => s.1 j i) r j i, if_neg hji]

/-- On the 2-by-2 identity matrix the block of `R` is the block of the factorized matrix. -/
theorem decompose_qr_reduced_writes_r_witness :
    ∃ s r' q', factorize_qr_householder Real.sqrt 2 2
        (fun j i => if i = j then (1 : ℝ) else 0) (fun _ _ => 0) (fun _ _ => 0) = some s ∧
      decompose_qr_reduced Real.sqrt 2 2 (fun j i => if i = j then (1 : ℝ) else 0)
        (fun _ _ => 0) (fun _ _ => 7) (fun _ _ => 0) (fun _ _ => 0) = some (r', q') ∧
      (∀ j i, j < 2 → i < 2 → r' j i = s.1 j i) ∧
      (∀ j i, ¬ (j < 2 ∧ i < 2) → r' j i = (fun _ _ => (7 : ℝ)) j i) :=
  decompose_qr_reduced_writes_r Real.sqrt 2 2 (by decide) _ _ _ _ _

end OutputR

/-! ## Index safety of `implicit_q_x` -/

section ImplicitQxBounds

variable {α : Type} [LinearOrderedField α]

/-- C21. `implicit_q_x` does not stay within the reflector set: for `1 ≤ n ≤ m` the call
faults exactly when `n < m`. Its first pass has `k = n`; for `n < m` the inner loop then reads
`v[n]`, one past the last of the `n` reflectors, and the bounds check fails. For `n = m` every
inner loop with `k = n` is empty and the passes `k = n-1 .. 1` read inside the set. -/
theorem implicit_q_x_bounds (m n : Nat) (hn : 0 < n) (hnm : n ≤ m) (x : Vector α)
    (v : Few (Vector α)) :
    (n < m → implicit_q_x m n x v = none) ∧
    (n = m → ∃ x', implicit_q_x m n x v = some x') := by
  refine ⟨fun hlt => ?_, fun heq => ?_⟩
  · unfold implicit_q_x
    refine forLoopM_first_none _ _ hn ?_
    have hd : forLoopM (n - 0) m
        (fun i dot => (Few.get? n v (n - 0)).map (fun vk => dot + vk i * x i)) (0 : α)
        = none :=
      forLoopM_first_none _ _ (by omega) (by simp [Few.get?])
    simp only [hd, Option.none_bind]
  · subst heq
    unfold implicit_q_x
    refine ⟨_, forLoopM_eq_some 0 n _
      (fun k2 x =>
        forLoop (n - k2) n
          (fun i y =>
            Function.update y i
              (y i - 2 * forLoop (n - k2) n (fun i dot => dot + v (n - k2) i * x i) 0
                * v (n - k2) i)) x)
      x ?_⟩
    intro k2 t _ hk2
    have hget : ∀ i, n - k2 ≤ i → i < n → Few.get? n v (n - k2) = some (v (n - k2)) := by
      intro i h1 h2
      unfold Few.get?
      rw [if_pos (by omega)]
    simp only
    rw [forLoopM_eq_some (n - k2) n _ (fun i dot => dot + v (n - k2) i * t i) 0
      (fun i dot h1 h2 => by rw [hget i h1 h2, Option.map_some']), Option.some_bind]
    exact forLoopM_eq_some (n - k2) n _ _ t
      (fun i y h1 h2 => by rw [hget i h1 h2, Option.map_some'])

/-- With `m = 2`, `n = 1`, `x = [1, 0]` and the single reflector `[1, 0]` the call faults. -/
theorem implicit_q_x_bounds_witness :
    implicit_q_x 2 1 (fun i => if i = 0 then (1 : ℚ) else 0)
      (fun _ i => if i = 0 then (1 : ℚ) else 0) = none :=
  (implicit_q_x_bounds 2 1 (by decide) (by decide) _ _).1 (by decide)

end ImplicitQxBounds

/-! ## Independence from the unassigned entries of the reflectors -/

section Unassigned

variable {α : Type} [LinearOrderedField α]

/-- Two loops whose bodies agree on the index range are equal. -/
theorem forLoop_congr {σ : Type} (lo hi : Nat) (body body' : Nat → σ → σ) (s : σ)
    (h : ∀ j t, lo ≤ j → j < hi → body j t = body' j t) :
    forLoop lo hi body s = forLoop lo hi body' s := by
  rcases Nat.le_total lo hi with hle | hle
  · induction hi, hle using Nat.le_induction with
    | base => rw [forLoop_of_le _ _ (le_refl lo), forLoop_of_le _ _ (le_refl lo)]
    | succ c hc ih =>
      rw [forLoop_succ _ _ hc, forLoop_succ _ _ hc,
        ih (fun j t h1 h2 => h j t h1 (Nat.lt_succ_of_lt h2))]
      exact h c _ hc (Nat.lt_succ_self c)
  · rw [forLoop_of_le _ _ hle, forLoop_of_le _ _ hle]

/-- `reflect_columns` reads its vector on the rows `(k + o) % 256 .. m-1` only. -/
theorem reflect_columns_congr (m n : Nat) (a : Matrix α) (w w' : Vector α) (k o : Nat)
    (h : ∀ i, (k + o) % 256 ≤ i → i < m → w i = w' i) :
    reflect_columns m n a w k o = reflect_columns m n a w' k o := by
  funext p q
  rw [reflect_columns_apply, reflect_columns_apply]
  by_cases hc : p < n ∧ (k + o) % 256 ≤ q ∧ q < m
  · rw [if_pos hc, if_pos hc, h q hc.2.1 hc.2.2]
    congr 2
    refine congrArg _ (Finset.sum_congr rfl (fun i hi => ?_))
    rw [h i (Finset.mem_Ico.mp hi).1 (Finset.mem_Ico.mp hi).2]
  · rw [if_neg hc, if_neg hc]

/-- C22 as stated fails in its second part: the counter of the loops of `reflect_columns` is a
`U8`, so with `k = 200` and `o = 100` it starts at `300 mod 256 = 44`. For `m = 45`, two
vectors that agree on every index `i ≥ k + o` but differ at 44 give different results. -/
theorem reflect_columns_unassigned_counterexample :
    (∀ i, 200 + 100 ≤ i →
      (fun i => if i = 44 then (1 : ℚ) else 0) i = (fun _ => (0 : ℚ)) i) ∧
    reflect_columns 45 1 (fun _ i => if i = 44 then (1 : ℚ) else 0)
        (fun i => if i = 44 then (1 : ℚ) else 0) 200 100 0 44
      ≠ reflect_columns 45 1 (fun _ i => if i = 44 then (1 : ℚ) else 0)
        (fun _ => (0 : ℚ)) 200 100 0 44 := by
  constructor
  · intro i hi
    have : i ≠ 44 := by omega
    simp [this]
  · rw [reflect_columns_apply, reflect_columns_apply]
    have h44 : Finset.Ico ((200 + 100) % 256) 45 = {44} := by decide
    rw [h44]
    norm_num

/-- On the rows `k .. m-1` the normalised Householder vector of iteration `k` does not depend
on the prior content of the local `v_k`. -/
theorem householder_normalized_congr (sqrt : α → α) (m : Nat) (a : Matrix α) (k : Nat)
    (v_k v_k' : Vector α) (hk : k < 256) (hkm : k < m) (i : Nat) (hki : k ≤ i) (him : i < m) :
    householder_candidate sqrt m a k 0 v_k i / householder_divisor sqrt m a k 0 v_k
      = householder_candidate sqrt m a k 0 v_k' i / householder_divisor sqrt m a k 0 v_k' := by
  have hmod : (k + 0) % 256 = k := Nat.mod_eq_of_lt hk
  have hc : ∀ i, k ≤ i → i < m →
      householder_candidate sqrt m a k 0 v_k i = householder_candidate sqrt m a k 0 v_k' i := by
    intro i h1 h2
    rcases Nat.eq_or_lt_of_le h1 with e | e
    · subst e
      rw [householder_candidate_pivot sqrt m a k v_k hk hkm,
        householder_candidate_pivot sqrt m a k v_k' hk hkm]
    · rw [householder_candidate_below sqrt m a k v_k hk i e h2,
        householder_candidate_below sqrt m a k v_k' hk i e h2]
  have hd : householder_divisor sqrt m a k 0 v_k = householder_divisor sqrt m a k 0 v_k' := by
    rw [householder_divisor_eq, householder_divisor_eq, hmod]
    refine congrArg sqrt (Finset.sum_congr rfl (fun i hi => ?_))
    rw [hc i (Finset.mem_Ico.mp hi).1 (Finset.mem_Ico.mp hi).2]
  rw [hc i hki him, hd]

/-- The matrix left by one iteration of the factorization depends on the matrix before it
only, not on the reflector set or on the prior content of the local `v_k`. -/
theorem factorize_step_matrix_congr (sqrt : α → α) (m n : Nat) (hm : m < 256)
    (u u' : Few (Vector α)) (k : Nat) (s s' : Matrix α × Few (Vector α)) (h : s.1 = s'.1) :
    (factorize_step sqrt m n u k s).map Prod.fst
      = (factorize_step sqrt m n u' k s').map Prod.fst := by
  by_cases hg : k < n ∧ k < m
  · have hmod : (k + 0) % 256 = k := Nat.mod_eq_of_lt (by omega)
    rw [factorize_step_eq sqrt m n u k s hg.1 hg.2,
      factorize_step_eq sqrt m n u' k s' hg.1 hg.2, Option.map_some', Option.map_some', ← h]
    simp only [Option.some.injEq]
    refine reflect_columns_congr m n s.1 _ _ k 0 (fun i h1 h2 => ?_)
    rw [hmod] at h1
    simp only [hmod, h1, h2, and_self, if_true]
    exact householder_normalized_congr sqrt m s.1 k (u k) (u' k) (by omega) hg.2 i h1 h2
  · have hnone : ∀ (w : Few (Vector α)) (t : Matrix α × Few (Vector α)),
        factorize_step sqrt m n w k t = none := by
      intro w t
      unfold factorize_step get_householder_vector
      rw [if_neg (by omega), Option.map_none']
    rw [hnone u s, hnone u' s']

/-- The matrix left by the first `c` iterations does not depend on the prior content of the
reflector set or of the locals. -/
theorem factorize_upto_matrix_congr (sqrt : α → α) (m n : Nat) (hm : m < 256) (a : Matrix α)
    (v v' u u' : Few (Vector α)) (c : Nat) :
    (factorize_upto sqrt m n a v u c).map Prod.fst
      = (factorize_upto sqrt m n a v' u' c).map Prod.fst := by
  induction c with
  | zero => rw [factorize_upto_zero, factorize_upto_zero]; rfl
  | succ c ih =>
    rw [factorize_upto_succ, factorize_upto_succ]
    cases hs : factorize_upto sqrt m n a v u c with
    | none =>
      cases hs' : factorize_upto sqrt m n a v' u' c with
      | none => rfl
      | some s' => rw [hs, hs'] at ih; exact Option.noConfusion ih
    | some s =>
      cases hs' : factorize_upto sqrt m n a v' u' c with
      | none => rw [hs, hs'] at ih; exact Option.noConfusion ih
      | some s' =>
        rw [hs, hs', Option.map_some', Option.map_some'] at ih
        rw [Option.some_bind, Option.some_bind]
        exact factorize_step_matrix_congr sqrt m n hm u u' c s s' (Option.some.inj ih)

/-- C22, amended. The never-assigned entries of a reflector cannot influence results (sizes of
type `U8`): two reflector sets that agree at `v[k][i]` for `k < n`, `k ≤ i < m` give the same
`implicit_q_trans_b`; for `k + o ≤ 255`, two vectors that agree on the rows `k+o .. m-1` give
the same `reflect_columns`; and the matrix left by `factorize_qr_householder` is the same for
every prior content of the reflector set and of the locals `v_k`. -/
theorem reflectors_unassigned_irrelevant (sqrt : α → α) (m n : Nat) (hm : m < 256) :
    (∀ (b : Vector α) (v v' : Few (Vector α)),
      (∀ k i, k < n → k ≤ i → i < m → v k i = v' k i) →
        implicit_q_trans_b m n b v = implicit_q_trans_b m n b v') ∧
    (∀ (a : Matrix α) (w w' : Vector α) (k o : Nat), k + o < 256 →
      (∀ i, k + o ≤ i → i < m → w i = w' i) →
        reflect_columns m n a w k o = reflect_columns m n a w' k o) ∧
    (∀ (a : Matrix α) (v v' u u' : Few (Vector α)),
      (factorize_qr_householder sqrt m n a v u).map Prod.fst
        = (factorize_qr_householder sqrt m n a v' u').map Prod.fst) := by
  refine ⟨?_, ?_, ?_⟩
  · intro b v v' h
    unfold implicit_q_trans_b
    refine forLoop_congr 0 n _ _ b (fun k t _ hk => ?_)
    simp only
    rw [implicit_q_trans_b_pass, implicit_q_trans_b_pass]
    funext i
    by_cases hc : k ≤ i ∧ i < m
    · rw [if_pos hc, if_pos hc, h k i hk hc.1 hc.2]
      congr 2
      refine congrArg _ (Finset.sum_congr rfl (fun i' hi' => ?_))
      rw [h k i' hk (Finset.mem_Ico.mp hi').1 (Finset.mem_Ico.mp hi').2]
    · rw [if_neg hc, if_neg hc]
  · intro a w w' k o hko h
    refine reflect_columns_congr m n a w w' k o (fun i h1 h2 => ?_)
    rw [Nat.mod_eq_of_lt hko] at h1
    exact h i h1 h2
  · intro a v v' u u'
    exact factorize_upto_matrix_congr sqrt m n hm a v v' u u' n

/-- On the spec's 3-by-2 scenario the factorized matrix is the same whether the unassigned
locals hold 0 or 7. -/
theorem reflectors_unassigned_irrelevant_witness :
    (factorize_qr_householder Real.sqrt 3 2 scenario_3x2 (fun _ _ => 0) (fun _ _ => 0)).map
        Prod.fst
      = (factorize_qr_householder Real.sqrt 3 2 scenario_3x2 (fun _ _ => 7)
          (fun _ _ => 7)).map Prod.fst :=
  (reflectors_unassigned_irrelevant Real.sqrt 3 2 (by decide)).2.2 scenario_3x2 _ _ _ _

end Unassigned

/-! ## Orthonormality of the written `Q` -/

section Orthonormal

variable {α : Type} [LinearOrderedField α]

/-- A reflection on the rows `k .. m-1` leaves a vector that is zero in these rows as it is,
whatever the reflecting vector holds. -/
theorem reflection_trivial (m k : Nat) (w x : Vector α) (hx : ∀ i, k ≤ i → i < m → x i = 0) :
    (fun i =>
        if k ≤ i ∧ i < m then x i - 2 * (∑ i' in Finset.Ico k m, x i' * w i') * w i else x i)
      = x := by
  have hdot : ∑ i' in Finset.Ico k m, x i' * w i' = 0 := by
    refine Finset.sum_eq_zero ?_
    intro i hi
    have hmem := Finset.mem_Ico.mp hi
    rw [hx i hmem.1 hmem.2, zero_mul]
  funext i
  rw [hdot]
  by_cases h : k ≤ i ∧ i < m
  · rw [if_pos h]; ring
  · rw [if_neg h]

/-- The loop of `decompose_qr_reduced` that writes `q`, in closed form: column `j < n` is
what the unchecked `implicit_q_x` makes of column `j` of the identity. -/
theorem decompose_q_loop (m n : Nat) (q : Matrix α) (v : Few (Vector α)) (j : Nat)
    (hj : j < n) :
    forLoop 0 n
        (fun j q =>
          let q := forLoop 0 m (fun i q => setEntry q j i (if i = j then 1 else 0)) q
          Function.update q j (implicit_q_x_unchecked m n (q j) v))
        q j
      = implicit_q_x_unchecked m n
          (fun i => if 0 ≤ i ∧ i < m then (if i = j then 1 else 0) else q j i) v := by
  have h : ∀ (j : Nat) (q : Matrix α),
      forLoop 0 m (fun i q => setEntry q j i (if i = j then 1 else 0)) q
        = Function.update q j
            (fun i => if 0 ≤ i ∧ i < m then (if i = j then (1 : α) else 0) else q j i) :=
    fun j q => forLoop_setEntry 0 m j (fun i _ => if i = j then (1 : α) else 0) q
  simp only [h, Function.update_same, Function.update_idem]
  rw [forLoop_update 0 n
    (fun j col => implicit_q_x_unchecked m n
      (fun i => if 0 ≤ i ∧ i < m then (if i = j then (1 : α) else 0) else col i) v) q]
  simp only [Nat.zero_le, true_and, hj, if_true]

end Orthonormal

section OrthonormalQ

end OrthonormalQ

section OrthonormalScenario

/-- The columns `[3, 4, 0]` and `[0, 0, 5]` of the spec's scenario are linearly independent. -/
theorem scenario_3x2_fullColumnRank : FullColumnRank 3 2 (scenario_3x2 : Matrix ℝ) := by
  intro c hc j hj
  have h0 := hc 0 (by decide)
  have h2 := hc 2 (by decide)
  simp [Finset.sum_range_succ, scenario_3x2] at h0 h2
  interval_cases j
  · exact h0
  · exact h2

/-- On the spec's 3-by-2 scenario the written `Q` has the columns `[1, 0, 0]` and
`[0, 0, -1]`, whatever the cell `v[2]` read by the first pass of `implicit_q_x` holds. -/
theorem decompose_qr_reduced_q_3x2 (q : Matrix ℝ) (v u : Few (Vector ℝ)) :
    ∃ Q, decompose_qr_reduced_q Real.sqrt 3 2 scenario_3x2 q v u = some Q ∧
      Q 0 0 = 1 ∧ Q 0 1 = 0 ∧ Q 0 2 = 0 ∧ Q 1 0 = 0 ∧ Q 1 1 = 0 ∧ Q 1 2 = -1 := by
  have hsq : ∀ x : ℝ, 0 ≤ x → Real.sqrt x * Real.sqrt x = x := fun x hx =>
    Real.mul_self_sqrt hx
  have h25 : Real.sqrt (5 * 5) = 5 := Real.sqrt_mul_self (by norm_num)
  have h012 : Finset.Ico 0 3 = {0, 1, 2} := by decide
  have h12 : Finset.Ico 1 3 = {1, 2} := by decide
  have h22 : Finset.Ico 2 3 = {2} := by decide
  have hdiv := noZeroDivisor_of_fullColumnRank Real.sqrt hsq Real.sqrt_nonneg 3 2
    (by decide) (by decide) scenario_3x2 v u scenario_3x2_fullColumnRank
  obtain ⟨s1, hs1⟩ := factorize_upto_isSome Real.sqrt 3 2 (by decide) scenario_3x2 v u 1
    (by decide)
  obtain ⟨s2, hs2⟩ := factorize_upto_isSome Real.sqrt 3 2 (by decide) scenario_3x2 v u 2
    (by decide)
  have hstep1 : factorize_step Real.sqrt 3 2 u 0 (scenario_3x2, v) = some s1 := by
    have h := hs1
    rw [factorize_upto_succ, factorize_upto_zero, Option.some_bind] at h
    exact h
  have hstep2 := hs2
  rw [factorize_upto_succ, hs1, Option.some_bind,
    factorize_step_eq Real.sqrt 3 2 u 1 s1 (by decide) (by decide)] at hstep2
  have hD1 := hdiv 1 (by decide) s1 hs1
  -- column 1 after the first iteration
  have hB1 : ∀ i, s1.1 1 i = (scenario_3x2 : Matrix ℝ) 1 i := by
    intro i
    rw [factorize_step_entry Real.sqrt 3 2 (by decide) u 0 _ s1 (by decide) (by decide)
      hstep1 1 i]
    have hdot : ∑ i' in Finset.Ico 0 3,
        (scenario_3x2 : Matrix ℝ) 1 i'
          * (householder_candidate Real.sqrt 3 scenario_3x2 0 0 (u 0) i'
            / householder_divisor Real.sqrt 3 scenario_3x2 0 0 (u 0)) = 0 := by
      have hc2 := householder_candidate_below Real.sqrt 3 (scenario_3x2 : Matrix ℝ) 0 (u 0)
        (by decide) 2 (by decide) (by decide)
      rw [h012, Finset.sum_insert (by decide), Finset.sum_pair (by decide), hc2]
      simp [scenario_3x2]
    simp only [hdot, mul_zero, zero_mul, sub_zero, ite_self]
  -- the second reflector
  have hc1 : householder_candidate Real.sqrt 3 s1.1 1 0 (u 1) 1 = 5 := by
    rw [householder_candidate_pivot Real.sqrt 3 s1.1 1 (u 1) (by decide) (by decide)]
    have hs : ∑ i in Finset.Ico 1 3, square (s1.1 1 i) = 5 * 5 := by
      rw [h12, Finset.sum_pair (by decide)]
      simp [hB1, scenario_3x2, square]
    have hsg : sign (s1.1 1 1) = 1 := by
      simp [sign, hB1, scenario_3x2]
    rw [hs, h25, hsg, hB1]
    simp [scenario_3x2]
  have hc2 : householder_candidate Real.sqrt 3 s1.1 1 0 (u 1) 2 = 5 := by
    rw [householder_candidate_below Real.sqrt 3 s1.1 1 (u 1) (by decide) 2 (by decide)
      (by decide), hB1]
    simp [scenario_3x2]
  have hDD : householder_divisor Real.sqrt 3 s1.1 1 0 (u 1)
      * householder_divisor Real.sqrt 3 s1.1 1 0 (u 1) = 50 := by
    rw [householder_divisor_mul_self Real.sqrt hsq 3 s1.1 1 (u 1) (by decide), h12,
      Finset.sum_pair (by decide), hc1, hc2]
    simp [square]
    norm_num
  have hw1 : s2.2 1 1
      = 5 / householder_divisor Real.sqrt 3 s1.1 1 0 (u 1) := by
    rw [← Option.some.inj hstep2]
    simp only [Function.update_same]
    rw [if_pos ⟨by decide, by decide⟩, hc1]
  have hw2 : s2.2 1 2
      = 5 / householder_divisor Real.sqrt 3 s1.1 1 0 (u 1) := by
    rw [← Option.some.inj hstep2]
    simp only [Function.update_same]
    rw [if_pos ⟨by decide, by decide⟩, hc2]
  have hww : (5 / householder_divisor Real.sqrt 3 s1.1 1 0 (u 1))
      * (5 / householder_divisor Real.sqrt 3 s1.1 1 0 (u 1)) = 1 / 2 := by
    rw [div_mul_div_comm, hDD]
    norm_num
  -- the two passes of `implicit_q_x` on a column of the identity
  have hpass : ∀ x : Vector ℝ, x 2 = 0 →
      implicit_q_x_unchecked 3 2 x s2.2
        = fun i =>
            if 1 ≤ i ∧ i < 3 then
              x i - 2 * (∑ i' in Finset.Ico 1 3, x i' * s2.2 1 i') * s2.2 1 i
            else x i := by
    intro x hx2
    unfold implicit_q_x_unchecked
    rw [forLoop_succ _ _ (by decide : 0 ≤ 1), forLoop_succ _ _ (le_refl 0),
      forLoop_of_le _ _ (le_refl 0)]
    simp only
    rw [implicit_q_trans_b_pass, implicit_q_trans_b_pass,
      reflection_trivial 3 (2 - 0) (s2.2 (2 - 0)) x (fun i h1 h2 => by
        have : i = 2 := by omega
        rw [this, hx2])]
  unfold decompose_qr_reduced_q factorize_qr_householder
  rw [hs2, Option.map_some']
  refine ⟨_, rfl, ?_⟩
  rw [decompose_q_loop 3 2 q s2.2 0 (by decide), decompose_q_loop 3 2 q s2.2 1 (by decide),
    hpass _ (by simp), hpass _ (by simp)]
  simp only [h12, Finset.sum_pair (by decide : (1 : ℕ) ≠ 2), hw1, hw2]
  refine ⟨?_, ?_, ?_, ?_, ?_, ?_⟩
  · simp
  · simp
  · simp
  · simp
  · simp
    linarith [hww]
  · simp
    linarith [hww]

end OrthonormalScenario

end Omega_h
